import Mathlib

/-!
Verification of the dependency-aware concurrent scheduler of
`playbook_runner.py` (target matcher, dependency-graph builder, readiness
scheduler, result aggregation), shallowly embedded in Lean 4.

Conventions of the embedding:
* Python dicts keyed by job index become functions `Nat → _`.
* JSON-like values (job vars, vars filters) are the inductive `JVal`;
  objects are ordered key/value lists, as produced by `json.loads`.
* The external JSON parser (`json.loads`) is an abstract parameter
  `jparse : String → Option JVal`; `none` models a raised exception.
* The thread pool's nondeterministic completion order is a list of
  `picks`; at each completion event the pick selects one in-flight job.
* The execution engine is an abstract `outcome : Nat → Option Nat`;
  `some rc` is a returned exit status, `none` a raised fault.
-/

namespace Infrawork

/-- JSON-like values: job vars values and vars-filter values. -/
inductive JVal where
  | null : JVal
  | bool : Bool → JVal
  | num : Int → JVal
  | str : String → JVal
  | arr : List JVal → JVal
  | obj : List (String × JVal) → JVal

mutual
/-- Deep (structural) equality test on JSON-like values (with the
pointwise tests on nested arrays and objects). -/
def JVal.beq : JVal → JVal → Bool
  | .null, .null => true
  | .bool a, .bool b => a == b
  | .num a, .num b => a == b
  | .str a, .str b => a == b
  | .arr a, .arr b => JVal.beqL a b
  | .obj a, .obj b => JVal.beqO a b
  | _, _ => false

def JVal.beqL : List JVal → List JVal → Bool
  | [], [] => true
  | x :: xs, y :: ys => JVal.beq x y && JVal.beqL xs ys
  | _, _ => false

def JVal.beqO : List (String × JVal) → List (String × JVal) → Bool
  | [], [] => true
  | (k, x) :: xs, (l, y) :: ys => k == l && JVal.beq x y && JVal.beqO xs ys
  | _, _ => false
end

instance : BEq JVal := ⟨JVal.beq⟩

theorem JVal.beq_iff_eq : ∀ a b : JVal, JVal.beq a b = true ↔ a = b := by
  intro a b
  refine JVal.beq.induct (fun a b => JVal.beq a b = true ↔ a = b)
    (fun u v => JVal.beqO u v = true ↔ u = v)
    (fun x y => JVal.beqL x y = true ↔ x = y)
    ?_ ?_ ?_ ?_ ?_ ?_ ?_ ?_ ?_ ?_ ?_ ?_ ?_ a b
  · simp [JVal.beq]
  · intro a b; simp [JVal.beq]
  · intro a b; simp [JVal.beq]
  · intro a b; simp [JVal.beq]
  · intro a b ih; simpa [JVal.beq] using ih
  · intro a b ih; simpa [JVal.beq] using ih
  · intro t x h1 h2 h3 h4 h5 h6
    cases t <;> cases x <;> simp_all [JVal.beq]
  · simp [JVal.beqL]
  · intro x xs y ys ih1 ih2; simp [JVal.beqL, ih1, ih2]
  · intro t x h1 h2
    cases t with
    | nil => cases x with
      | nil => exact (h1 rfl rfl).elim
      | cons q ys => simp [JVal.beqL]
    | cons p xs => cases x with
      | nil => simp [JVal.beqL]
      | cons q ys => exact (h2 p xs q ys rfl rfl).elim
  · simp [JVal.beqO]
  · intro k x xs l y ys ih1 ih2; simp [JVal.beqO, ih1, ih2]
  · intro t x h1 h2
    cases t with
    | nil => cases x with
      | nil => exact (h1 rfl rfl).elim
      | cons q ys => simp [JVal.beqO]
    | cons p xs => cases x with
      | nil => simp [JVal.beqO]
      | cons q ys => exact (h2 p.1 p.2 xs q.1 q.2 ys (by simp) (by simp)).elim

instance : DecidableEq JVal := fun a b =>
  decidable_of_iff (JVal.beq a b = true) (JVal.beq_iff_eq a b)

instance : LawfulBEq JVal where
  eq_of_beq h := (JVal.beq_iff_eq _ _).1 h
  rfl := (JVal.beq_iff_eq _ _).2 rfl

/-- A single (role, host, vars) job, as built by `_build_jobs`. -/
structure Job where
  role : String
  host : String
  vars : List (String × JVal)
deriving DecidableEq

instance : Inhabited Job := ⟨⟨"", "", []⟩⟩

/-- Python `dict.get(k)`: the stored value, or `None` (JSON null) when the
key is absent. -/
def dict_get (m : List (String × JVal)) (k : String) : JVal :=
  match m.lookup k with
  | some v => v
  | none => JVal.null

/-- `_vars_match(job_vars, filter_vars)`: every filter key must compare
equal (via `dict.get`) in the job's vars; an empty filter matches. -/
def vars_match (jobVars filterVars : List (String × JVal)) : Bool :=
  filterVars.all (fun kv => dict_get jobVars kv.1 == kv.2)

/-- Split a character list at the first occurrence of `sep`, returning the
part before and the part after (Python `s.split(sep, 1)` when `sep in s`). -/
def splitOnFirst (sep : List Char) : List Char → Option (List Char × List Char)
  | [] => none
  | c :: cs =>
    if sep.isPrefixOf (c :: cs) then some ([], (c :: cs).drop sep.length)
    else
      match splitOnFirst sep cs with
      | some (pre, post) => some (c :: pre, post)
      | none => none

/-- `_parse_target(raw)`: split on the first `":vars="`; the remainder must
parse (via the abstract JSON parser) to an object, else the filter is empty. -/
def parse_target (jparse : String → Option JVal) (raw : String) :
    String × List (String × JVal) :=
  match splitOnFirst ":vars=".data raw.data with
  | none => (raw, [])
  | some (pre, post) =>
    (String.mk pre,
      match jparse (String.mk post) with
      | some (JVal.obj o) => o
      | _ => [])

/-- `f"{job['role']}@{job['host']}"`. -/
def base_label (j : Job) : String := j.role ++ "@" ++ j.host

/-- Job at index `i` (indices are always in range where this is used). -/
def jobAt (jobs : List Job) (i : Nat) : Job := jobs.getD i default

/-- `role_to_ids.get(r, [])`: indices of jobs with role `r`, in
registration order. -/
def role_to_ids (jobs : List Job) (r : String) : List Nat :=
  (List.range jobs.length).filter (fun i => (jobAt jobs i).role == r)

/-- Candidate pool for a base selector: exact base-label jobs when the base
contains `@`, else all jobs of that role. -/
def target_pool (jobs : List Job) (base : String) : List Nat :=
  if base.data.contains '@' then
    (List.range jobs.length).filter (fun i => base_label (jobAt jobs i) == base)
  else role_to_ids jobs base

/-- `dep_base.split("@", 1)[0]`: the role portion before the first `@`. -/
def roleOf (base : String) : String :=
  match splitOnFirst ['@'] base.data with
  | some (pre, _) => String.mk pre
  | none => base

/-- The graph-construction state of `_build_dependency_graph`: the two
missing-pattern accumulators, the in-degree table and the adjacency lists
(dicts over job indices, embedded as functions). -/
structure GraphParts where
  missing_targets : List String
  missing_deps : List String
  in_degree : Nat → Int
  edges : Nat → List Nat

/-- `edges[dep_id].append(target_id); in_degree[target_id] += 1`. -/
def addOneEdge (depId targetId : Nat) (g : GraphParts) : GraphParts :=
  { g with
    edges := fun i => if i = depId then g.edges depId ++ [targetId] else g.edges i,
    in_degree := fun j => if j = targetId then g.in_degree targetId + 1 else g.in_degree j }

/-- The target/dep cross product: outer loop over targets, inner over deps. -/
def addEdges (targetIds depIds : List Nat) (g : GraphParts) : GraphParts :=
  targetIds.foldl (fun g t => depIds.foldl (fun g d => addOneEdge d t g) g) g

/-- How `_build_dependency_graph` classifies one prerequisite pattern
(lines 139-160); the classification reads only the job set and the pattern. -/
inductive DepAction where
  | warnSkip : DepAction
  | missingDep : DepAction
  | addDep (depIds : List Nat) : DepAction
deriving DecidableEq

/-- Classify a raw prerequisite pattern against the job set. -/
def depAction (jobs : List Job) (jparse : String → Option JVal) (depRaw : String) :
    DepAction :=
  let (depBase, depVars) := parse_target jparse depRaw
  if depBase.data.contains '@' then
    let depPool := (List.range jobs.length).filter
      (fun i => base_label (jobAt jobs i) == depBase)
    let depRole := roleOf depBase
    if depPool = [] ∧ jobs.any (fun j => j.role == depRole) then
      DepAction.warnSkip
    else if depPool = [] then DepAction.missingDep
    else
      let depIds := depPool.filter (fun i => vars_match (jobAt jobs i).vars depVars)
      if depVars ≠ [] ∧ depIds = [] then DepAction.missingDep
      else if depVars = [] ∧ depIds = [] then DepAction.missingDep
      else DepAction.addDep depIds
  else
    let depPool := role_to_ids jobs depBase
    if depPool = [] then DepAction.missingDep
    else
      let depIds := depPool.filter (fun i => vars_match (jobAt jobs i).vars depVars)
      if depVars ≠ [] ∧ depIds = [] then DepAction.missingDep
      else if depVars = [] ∧ depIds = [] then DepAction.missingDep
      else DepAction.addDep depIds

/-- Process one prerequisite entry of a declaration whose resolved target
ids are `targetIds`. -/
def processDep (jobs : List Job) (jparse : String → Option JVal)
    (targetIds : List Nat) (g : GraphParts) (depRaw : String) : GraphParts :=
  match depAction jobs jparse depRaw with
  | DepAction.warnSkip => { g with missing_targets := g.missing_targets ++ [depRaw] }
  | DepAction.missingDep => { g with missing_deps := g.missing_deps ++ [depRaw] }
  | DepAction.addDep depIds => addEdges targetIds depIds g

/-- Resolved target ids of a declaration key: candidate pool filtered by
the parsed vars filter. -/
def targetIdsOf (jobs : List Job) (jparse : String → Option JVal) (rawKey : String) :
    List Nat :=
  let (keyBase, keyVars) := parse_target jparse rawKey
  (target_pool jobs keyBase).filter (fun i => vars_match (jobAt jobs i).vars keyVars)

/-- Process one declaration `(raw_key, raw_deps)`. -/
def processDecl (jobs : List Job) (jparse : String → Option JVal)
    (g : GraphParts) (decl : String × List String) : GraphParts :=
  let targetIds := targetIdsOf jobs jparse decl.1
  if targetIds = [] then { g with missing_targets := g.missing_targets ++ [decl.1] }
  else decl.2.foldl (processDep jobs jparse targetIds) g

/-- The whole construction pass of `_build_dependency_graph` before its
post-pass checks. -/
def buildParts (jobs : List Job) (jparse : String → Option JVal)
    (deps : List (String × List String)) : GraphParts :=
  deps.foldl (processDecl jobs jparse) ⟨[], [], fun _ => 0, fun _ => []⟩

/-- `sorted(set(xs))` over the missing-pattern accumulator. -/
def distinctSorted (l : List String) : List String :=
  l.dedup.mergeSort (fun a b => a ≤ b)

/-- `_build_dependency_graph`: `none` models the `(None, None)` error
return taken when the missing-dependency accumulator is non-empty. -/
def build_dependency_graph (jobs : List Job) (jparse : String → Option JVal)
    (deps : List (String × List String)) : Option ((Nat → Int) × (Nat → List Nat)) :=
  let g := buildParts jobs jparse deps
  if g.missing_deps = [] then some (g.in_degree, g.edges) else none

/-- The label-assigning fold of `_prepare_job_metadata`: `counts` is the
occurrence map accumulated so far. -/
def displayLabelsAux (counts : String → Nat) : List Job → List String
  | [] => []
  | j :: rest =>
    let b := base_label j
    let c := counts b + 1
    let lbl := if c = 1 then b else b ++ " (run " ++ Nat.repr c ++ ")"
    lbl :: displayLabelsAux (fun s => if s = b then c else counts s) rest

/-- The display labels of the job list, in registration order. -/
def display_labels (jobs : List Job) : List String :=
  displayLabelsAux (fun _ => 0) jobs

/-- Display label of job `i` (total lookup; indices are in range wherever
this is used). -/
def dLabel (jobs : List Job) (i : Nat) : String := (display_labels jobs).getD i ""

/-- Occurrences of job `i`'s base label among jobs `0..i` (inclusive). -/
def occUpto (jobs : List Job) (i : Nat) : Nat :=
  ((List.range (i + 1)).filter
    (fun k => base_label (jobAt jobs k) == base_label (jobAt jobs i))).length

/-- Decimal digit string of a natural number, most significant first. -/
def decDigits (n : Nat) : List Char :=
  if _h : n < 10 then [Nat.digitChar (n % 10)]
  else decDigits (n / 10) ++ [Nat.digitChar (n % 10)]
decreasing_by exact Nat.div_lt_self (by omega) (by omega)

theorem toDigitsCore_append (f n : Nat) (acc : List Char) :
    Nat.toDigitsCore 10 f n acc = Nat.toDigitsCore 10 f n [] ++ acc := by
  induction f generalizing n acc with
  | zero => simp [Nat.toDigitsCore]
  | succ f ih =>
    simp only [Nat.toDigitsCore]
    by_cases h : n / 10 = 0
    · simp [h]
    · simp only [h, if_false]
      rw [ih (n / 10) [Nat.digitChar (n % 10)], ih (n / 10) (Nat.digitChar (n % 10) :: acc)]
      simp

theorem toDigitsCore_eq_decDigits (f n : Nat) (h : n < f) :
    Nat.toDigitsCore 10 f n [] = decDigits n := by
  induction f generalizing n with
  | zero => omega
  | succ f ih =>
    simp only [Nat.toDigitsCore]
    by_cases h0 : n / 10 = 0
    · have hn : n < 10 := by omega
      rw [decDigits, dif_pos hn]
      simp [h0]
    · have hn : ¬ n < 10 := by
        intro hc
        exact h0 (Nat.div_eq_of_lt hc)
      rw [decDigits, dif_neg hn]
      simp only [h0, if_false]
      rw [toDigitsCore_append, ih (n / 10) (by omega)]

theorem repr_eq_decDigits (n : Nat) : Nat.repr n = (decDigits n).asString := by
  rw [Nat.repr, Nat.toDigits, toDigitsCore_eq_decDigits (n + 1) n (by omega)]

/-- Numeric value of a digit character. -/
def chVal (c : Char) : Nat := c.toNat - 48

/-- Read back a most-significant-first decimal digit list. -/
def digitsVal (l : List Char) : Nat := l.foldl (fun a c => a * 10 + chVal c) 0

theorem digitChar_val : ∀ m, m < 10 → chVal (Nat.digitChar m) = m := by decide

theorem digitsVal_cons_general (l : List Char) (a : Nat) :
    l.foldl (fun a c => a * 10 + chVal c) a =
      a * 10 ^ l.length + digitsVal l := by
  induction l generalizing a with
  | nil => simp [digitsVal]
  | cons c cs ih =>
    simp only [List.foldl_cons, digitsVal, List.length_cons]
    rw [ih (a * 10 + chVal c), ih (0 * 10 + chVal c)]
    ring

theorem digitsVal_decDigits (n : Nat) : digitsVal (decDigits n) = n := by
  by_cases h : n < 10
  · rw [decDigits, dif_pos h]
    simp only [digitsVal, List.foldl_cons, List.foldl_nil]
    rw [digitChar_val (n % 10) (Nat.mod_lt _ (by omega))]
    omega
  · rw [decDigits, dif_neg h]
    have ih := digitsVal_decDigits (n / 10)
    simp only [digitsVal, List.foldl_append, List.foldl_cons, List.foldl_nil]
    have : (decDigits (n / 10)).foldl (fun a c => a * 10 + chVal c) 0 = n / 10 := ih
    rw [this, digitChar_val (n % 10) (Nat.mod_lt n (by omega))]
    omega
decreasing_by exact Nat.div_lt_self (by omega) (by omega)

theorem repr_injective : Function.Injective Nat.repr := by
  intro a b h
  rw [repr_eq_decDigits, repr_eq_decDigits] at h
  have hd : decDigits a = decDigits b := by
    have := congrArg String.data h
    simpa [List.asString] using this
  have := congrArg digitsVal hd
  rwa [digitsVal_decDigits, digitsVal_decDigits] at this

/-- Scheduler state of `_run_parallel`'s control loop: the FIFO ready
deque, the in-flight jobs (`future_map`, in submission order), the
`launched` set (kept as a list in submission order), the results list
(job index, recorded status), the global stop flag and the mutable
in-degree table. -/
structure SchedState where
  ready : List Nat
  inFlight : List Nat
  launched : List Nat
  results : List (Nat × Nat)
  stop : Bool
  in_degree : Nat → Int

/-- `max(1, min(max_parallel, len(jobs)))`. -/
def workerCount (maxParallel n : Nat) : Nat := max 1 (min maxParallel n)

/-- The inner submission loop: while the ready deque is non-empty, fewer
than `wc` tasks are in flight and the stop flag is unset, pop and submit. -/
def fillGo (wc : Nat) (ready fl launched : List Nat) (stop : Bool) :
    List Nat × List Nat × List Nat :=
  match ready with
  | [] => ([], fl, launched)
  | idx :: rest =>
    if fl.length < wc ∧ stop = false then
      fillGo wc rest (fl ++ [idx]) (launched ++ [idx]) stop
    else (idx :: rest, fl, launched)

/-- The submission phase applied to a scheduler state. -/
def fillLoop (wc : Nat) (st : SchedState) : SchedState :=
  let r := fillGo wc st.ready st.inFlight st.launched st.stop
  { st with ready := r.1, inFlight := r.2.1, launched := r.2.2 }

/-- `for dep in edges.get(idx, []): in_degree[dep] -= 1; if 0: append`. -/
def processEdges : List Nat → (Nat → Int) → List Nat → ((Nat → Int) × List Nat)
  | [], deg, rdy => (deg, rdy)
  | d :: ds, deg, rdy =>
    processEdges ds (fun j => if j = d then deg d - 1 else deg j)
      (if deg d - 1 = 0 then rdy ++ [d] else rdy)

/-- Recorded status of a completed job: a returned status is kept, a
raised fault is recorded as status 1. -/
def recordedRc (o : Option Nat) : Nat :=
  match o with
  | some rc => rc
  | none => 1

/-- Whether the completion trips the global stop flag: non-zero status or
a raised fault. -/
def failObserved (o : Option Nat) : Bool :=
  match o with
  | some rc => rc != 0
  | none => true

/-- Handle one completed task: the `pick` chooses which in-flight task the
`as_completed` wait yields; record its result, update the stop flag, then
decrement the in-degrees along its outgoing edges. -/
def doComplete (edges : Nat → List Nat) (outcome : Nat → Option Nat)
    (st : SchedState) (pick : Nat) : SchedState :=
  match st.inFlight with
  | [] => st
  | _ :: _ =>
    let k := pick % st.inFlight.length
    let idx := st.inFlight.getD k 0
    let pe := processEdges (edges idx) st.in_degree st.ready
    { ready := pe.2,
      inFlight := st.inFlight.eraseIdx k,
      launched := st.launched,
      results := st.results ++ [(idx, recordedRc (outcome idx))],
      stop := st.stop || failObserved (outcome idx),
      in_degree := pe.1 }

/-- The control loop: each entry of `picks` drives one iteration (fill
phase, then wait for one completion). A state on which the loop has
exited is a fixpoint. -/
def schedRun (wc : Nat) (edges : Nat → List Nat) (outcome : Nat → Option Nat) :
    List Nat → SchedState → SchedState
  | [], st => st
  | pick :: picks, st =>
    if st.ready = [] ∧ st.inFlight = [] then st
    else
      let st1 := fillLoop wc st
      if st1.inFlight = [] then st1
      else schedRun wc edges outcome picks (doComplete edges outcome st1 pick)

/-- The loop has terminated: the submission phase leaves nothing in
flight (this covers both the outer condition turning false and the
`break` after an empty fill). -/
def Done (wc : Nat) (st : SchedState) : Prop := (fillLoop wc st).inFlight = []

/-- Initial scheduler state for a built graph over `n` jobs. -/
def initState (n : Nat) (deg : Nat → Int) : SchedState :=
  { ready := (List.range n).filter (fun i => deg i == 0),
    inFlight := [], launched := [], results := [], stop := false,
    in_degree := deg }

/-- Job indices recorded as completed (ran to a terminal state). -/
def processedOf (st : SchedState) : List Nat := st.results.map Prod.fst

/-- The finalization pass: indices reported as `(not run)`. -/
def notRunIdxs (jobs : List Job) (st : SchedState) : List Nat :=
  if st.stop = true ∧ st.results.length < jobs.length then
    (List.range jobs.length).filter
      (fun i => !((st.results.map (fun r => dLabel jobs r.1)).contains (dLabel jobs i)))
  else []

/-- Final reported records: per-completion records (display label, status)
followed by the synthesized `(not run)` failure records. -/
def finalRecords (jobs : List Job) (st : SchedState) : List (String × Nat) :=
  st.results.map (fun r => (dLabel jobs r.1, r.2))
    ++ (notRunIdxs jobs st).map (fun i => (dLabel jobs i ++ " (not run)", 1))

/-- Outcome of `_run_parallel`: the two pre-execution aborts, or a
finished run. -/
inductive RunResult where
  | missingDeps (patterns : List String) : RunResult
  | noStart : RunResult
  | finished (exitCode : Nat) (records : List (String × Nat)) (final : SchedState) :
      RunResult

def RunResult.exitCode : RunResult → Nat
  | .finished c _ _ => c
  | _ => 1

def RunResult.launched : RunResult → List Nat
  | .finished _ _ st => st.launched
  | _ => []

def RunResult.records : RunResult → List (String × Nat)
  | .finished _ r _ => r
  | _ => []

/-- `_run_parallel`: build the graph (aborting on missing dependencies),
check for a starting node, run the control loop, finalize and compute the
exit code. -/
def run_parallel (jobs : List Job) (jparse : String → Option JVal)
    (deps : List (String × List String)) (maxParallel : Nat)
    (outcome : Nat → Option Nat) (picks : List Nat) : RunResult :=
  let g := buildParts jobs jparse deps
  if g.missing_deps ≠ [] then RunResult.missingDeps (distinctSorted g.missing_deps)
  else
    let st0 := initState jobs.length g.in_degree
    if st0.ready = [] then RunResult.noStart
    else
      let fin := schedRun (workerCount maxParallel jobs.length) g.edges outcome picks st0
      let recs := finalRecords jobs fin
      RunResult.finished (if recs.any (fun r => r.2 != 0) then 1 else 0) recs fin

/-! ### Helper lemmas about `splitOnFirst` -/

theorem isPrefixOf_append_drop :
    ∀ (s l : List Char), s.isPrefixOf l = true → l = s ++ l.drop s.length := by
  intro s
  induction s with
  | nil => intro l _; simp
  | cons a s ih =>
    intro l h
    cases l with
    | nil => simp [List.isPrefixOf] at h
    | cons b t =>
      simp only [List.isPrefixOf, Bool.and_eq_true, beq_iff_eq] at h
      obtain ⟨rfl, h2⟩ := h
      simp only [List.cons_append, List.length_cons, List.drop_succ_cons, List.cons.injEq, true_and]
      exact ih t h2

theorem isPrefixOf_append_self (s t : List Char) : s.isPrefixOf (s ++ t) = true := by
  induction s with
  | nil => simp [List.isPrefixOf]
  | cons a s ih => simp [List.isPrefixOf, ih]

theorem splitOnFirst_eq (sep : List Char) :
    ∀ (l pre post : List Char), splitOnFirst sep l = some (pre, post) →
      l = pre ++ sep ++ post := by
  intro l
  induction l with
  | nil => intro pre post h; simp [splitOnFirst] at h
  | cons c cs ih =>
    intro pre post h
    rw [splitOnFirst] at h
    split at h
    · rename_i hp
      rw [Option.some.injEq, Prod.mk.injEq] at h
      obtain ⟨rfl, rfl⟩ := h
      simpa using isPrefixOf_append_drop sep (c :: cs) hp
    · rename_i hp
      cases hrec : splitOnFirst sep cs with
      | none => rw [hrec] at h; exact absurd h (by simp)
      | some pq =>
        obtain ⟨p', q'⟩ := pq
        rw [hrec, Option.some.injEq, Prod.mk.injEq] at h
        obtain ⟨rfl, rfl⟩ := h
        simpa using ih p' q' hrec

theorem splitOnFirst_leftmost (sep : List Char) :
    ∀ (l pre post : List Char), splitOnFirst sep l = some (pre, post) →
      ∀ p q, l = p ++ sep ++ q → pre.length ≤ p.length := by
  intro l
  induction l with
  | nil => intro pre post h; simp [splitOnFirst] at h
  | cons c cs ih =>
    intro pre post h p q hl
    rw [splitOnFirst] at h
    split at h
    · rw [Option.some.injEq, Prod.mk.injEq] at h
      obtain ⟨rfl, rfl⟩ := h
      simp
    · rename_i hp
      cases hrec : splitOnFirst sep cs with
      | none => rw [hrec] at h; exact absurd h (by simp)
      | some pq =>
        obtain ⟨p', q'⟩ := pq
        rw [hrec, Option.some.injEq, Prod.mk.injEq] at h
        obtain ⟨rfl, rfl⟩ := h
        cases p with
        | nil =>
          exfalso
          simp only [List.nil_append] at hl
          rw [hl] at hp
          exact absurd (isPrefixOf_append_self sep q) (by simp [hp])
        | cons x p'' =>
          simp only [List.cons_append, List.cons.injEq] at hl
          simpa using Nat.succ_le_succ (ih p' q' hrec p'' q hl.2)

theorem splitOnFirst_none (sep : List Char) (hsep : sep ≠ []) :
    ∀ (l : List Char), splitOnFirst sep l = none →
      ∀ p q, l ≠ p ++ sep ++ q := by
  intro l
  induction l with
  | nil =>
    intro _ p q hl
    have h1 := congrArg List.length hl
    have h2 : 0 < sep.length := List.length_pos.mpr hsep
    simp at h1
    omega
  | cons c cs ih =>
    intro h p q hl
    rw [splitOnFirst] at h
    split at h
    · exact absurd h (by simp)
    · rename_i hp
      cases hrec : splitOnFirst sep cs with
      | some pq => rw [hrec] at h; exact absurd h (by simp)
      | none =>
        cases p with
        | nil =>
          simp only [List.nil_append] at hl
          rw [hl] at hp
          exact absurd (isPrefixOf_append_self sep q) (by simp [hp])
        | cons x p'' =>
          simp only [List.cons_append, List.cons.injEq] at hl
          exact ih hrec p'' q hl.2

/-! ### C5: vars filter matching -/

/-- C5 (counterexample): the claim says a filter never matches a job
missing one of the filter's keys, but `_vars_match` compares via
`dict.get`, so a filter value of JSON `null` matches an absent key: the
empty vars mapping matches the filter `{"k": null}`. -/
theorem c5_counterexample :
    vars_match [] [("k", JVal.null)] = true ∧
    List.lookup "k" ([] : List (String × JVal)) = none := by
  constructor
  · rfl
  · rfl

/-- C5 (amended): a job matches a filter iff for every filter key the
job's vars lookup — yielding JSON null when the key is absent — equals
the filter's value; an empty filter matches everything, extra job keys
are ignored, and a filter entry with a non-null value never matches a job
missing that key. -/
theorem c5_vars_match_amended (jv fv : List (String × JVal)) :
    vars_match jv [] = true ∧
    (vars_match jv fv = true ↔ ∀ kv ∈ fv, dict_get jv kv.1 = kv.2) ∧
    (∀ k v, (k, v) ∈ fv → v ≠ JVal.null → jv.lookup k = none →
      vars_match jv fv = false) := by
  refine ⟨rfl, ?_, ?_⟩
  · simp [vars_match, List.all_eq_true, beq_iff_eq]
  · intro k v hmem hnull hlook
    by_contra hmatch
    have hm : vars_match jv fv = true := by
      cases h : vars_match jv fv with
      | true => rfl
      | false => exact absurd h hmatch
    have := (by simpa [vars_match, List.all_eq_true, beq_iff_eq] using hm :
      ∀ kv ∈ fv, dict_get jv kv.1 = kv.2) (k, v) hmem
    rw [dict_get, hlook] at this
    exact hnull this.symm

/-- C5 (witness): a job with an extra key matches the subset filter; a
job missing the (non-null) filter key does not match. -/
theorem c5_witness :
    vars_match [("k", JVal.str "v"), ("extra", JVal.num 1)] [("k", JVal.str "v")] = true ∧
    vars_match [("x", JVal.num 0)] [("k", JVal.str "v")] = false := by
  constructor
  · exact ((c5_vars_match_amended
      [("k", JVal.str "v"), ("extra", JVal.num 1)] [("k", JVal.str "v")]).2.1).mpr
      (by decide)
  · exact (c5_vars_match_amended [("x", JVal.num 0)] [("k", JVal.str "v")]).2.2
      "k" (JVal.str "v") (by decide) (by decide) (by decide)

/-! ### C8: target-pattern parsing -/

/-- C8: `_parse_target` splits its input at the first occurrence of
`":vars="` into a base and a filter part; when no occurrence exists the
whole input is the base and the filter is empty; when the filter part
does not parse to a JSON object (parse failure or non-object value) the
filter is empty; the function is total (never raises) for every input and
every behavior of the JSON parser. -/
theorem c8_parse_target_splits (jparse : String → Option JVal) (raw : String) :
    (∀ pre post, splitOnFirst ":vars=".data raw.data = some (pre, post) →
      raw.data = pre ++ ":vars=".data ++ post ∧
      (∀ p q, raw.data = p ++ ":vars=".data ++ q → pre.length ≤ p.length) ∧
      parse_target jparse raw =
        (String.mk pre,
          match jparse (String.mk post) with
          | some (JVal.obj o) => o
          | _ => [])) ∧
    (splitOnFirst ":vars=".data raw.data = none →
      (∀ p q, raw.data ≠ p ++ ":vars=".data ++ q) ∧
      parse_target jparse raw = (raw, [])) ∧
    (∀ pre post, splitOnFirst ":vars=".data raw.data = some (pre, post) →
      (jparse (String.mk post) = none ∨
        ∀ o, jparse (String.mk post) ≠ some (JVal.obj o)) →
      (parse_target jparse raw).2 = []) := by
  refine ⟨?_, ?_, ?_⟩
  · intro pre post h
    refine ⟨splitOnFirst_eq _ _ _ _ h, splitOnFirst_leftmost _ _ _ _ h, ?_⟩
    simp only [parse_target, h]
  · intro h
    exact ⟨splitOnFirst_none _ (by decide) _ h, by simp only [parse_target, h]⟩
  · intro pre post h hfail
    simp only [parse_target, h]
    rcases hfail with hnone | hnotobj
    · rw [hnone]
    · cases hj : jparse (String.mk post) with
      | none => rfl
      | some v =>
        cases v with
        | obj o => exact absurd hj (hnotobj o)
        | null => rfl
        | bool b => rfl
        | num n => rfl
        | str s => rfl
        | arr a => rfl

/-- C8 (witness): concrete split with a parsed object filter, and a
malformed-filter input degrading to an empty filter. -/
theorem c8_witness :
    parse_target (fun _ => some (JVal.obj [("k", JVal.num 1)])) "a:vars=X" =
      ("a", [("k", JVal.num 1)]) ∧
    parse_target (fun _ => none) "a:vars=\x7boops" = ("a", []) := by
  constructor
  · exact ((c8_parse_target_splits (fun _ => some (JVal.obj [("k", JVal.num 1)]))
      "a:vars=X").1 "a".data "X".data rfl).2.2
  · have h := (c8_parse_target_splits (fun _ => none) "a:vars=\x7boops").1
      "a".data "\x7boops".data rfl
    exact h.2.2

/-! ### C9: display labels -/

/-- Occurrences of base label `b` in a job list. -/
def occIn (b : String) (l : List Job) : Nat :=
  (l.filter (fun j => base_label j == b)).length

theorem displayLabelsAux_length (js : List Job) :
    ∀ counts, (displayLabelsAux counts js).length = js.length := by
  induction js with
  | nil => intro counts; rfl
  | cons j rest ih => intro counts; simp [displayLabelsAux, ih]

theorem displayLabelsAux_getD (js : List Job) :
    ∀ (counts : String → Nat) (i : Nat), i < js.length →
      (displayLabelsAux counts js).getD i "" =
        (if counts (base_label (jobAt js i)) + occIn (base_label (jobAt js i)) (js.take (i + 1)) = 1
         then base_label (jobAt js i)
         else base_label (jobAt js i) ++ " (run " ++
           Nat.repr (counts (base_label (jobAt js i)) + occIn (base_label (jobAt js i)) (js.take (i + 1))) ++ ")") := by
  induction js with
  | nil => intro counts i h; simp at h
  | cons j rest ih =>
    intro counts i h
    cases i with
    | zero =>
      simp [displayLabelsAux, occIn, jobAt, List.filter_cons]
    | succ i =>
      have hi : i < rest.length := by simpa using h
      have hL : (displayLabelsAux counts (j :: rest)).getD (i + 1) "" =
          (displayLabelsAux
            (fun s => if s = base_label j then counts (base_label j) + 1 else counts s)
            rest).getD i "" := by
        simp [displayLabelsAux]
      rw [hL, ih _ i hi]
      have hAt : jobAt (j :: rest) (i + 1) = jobAt rest i := by simp [jobAt]
      rw [hAt]
      have hTake : (j :: rest).take (i + 1 + 1) = j :: rest.take (i + 1) := by
        simp [List.take_succ_cons]
      rw [hTake]
      by_cases hb : base_label (jobAt rest i) = base_label j
      · have hOcc : occIn (base_label (jobAt rest i)) (j :: rest.take (i + 1)) =
            occIn (base_label (jobAt rest i)) (rest.take (i + 1)) + 1 := by
          simp [occIn, List.filter_cons, hb]
        rw [hOcc]
        rw [if_pos hb, hb]
        have heq : counts (base_label j) + 1 + occIn (base_label j) (rest.take (i + 1)) =
            counts (base_label j) + (occIn (base_label j) (rest.take (i + 1)) + 1) := by omega
        rw [heq]
      · have hOcc : occIn (base_label (jobAt rest i)) (j :: rest.take (i + 1)) =
            occIn (base_label (jobAt rest i)) (rest.take (i + 1)) := by
          simp only [occIn, List.filter_cons]
          have hf : (base_label j == base_label (jobAt rest i)) = false := by
            simp [Ne.symm hb]
          rw [hf]
          simp
        rw [hOcc, if_neg hb]

theorem range_map_jobAt (jobs : List Job) (i : Nat) (h : i < jobs.length) :
    (List.range (i + 1)).map (jobAt jobs) = jobs.take (i + 1) := by
  apply List.ext_getElem
  · simp; omega
  · intro k h1 h2
    simp only [List.getElem_map, List.getElem_range, List.getElem_take]
    have hk : k < jobs.length := by simp at h1; omega
    simp [jobAt, List.getD, List.getElem?_eq_getElem hk]

theorem occUpto_eq_occIn (jobs : List Job) (i : Nat) (h : i < jobs.length) :
    occUpto jobs i = occIn (base_label (jobAt jobs i)) (jobs.take (i + 1)) := by
  rw [occUpto, occIn, ← range_map_jobAt jobs i h, List.map_filter]
  simp only [List.length_map]
  rfl

theorem dLabel_formula (jobs : List Job) (i : Nat) (h : i < jobs.length) :
    dLabel jobs i =
      (if occUpto jobs i = 1 then base_label (jobAt jobs i)
       else base_label (jobAt jobs i) ++ " (run " ++ Nat.repr (occUpto jobs i) ++ ")") := by
  rw [dLabel, display_labels, displayLabelsAux_getD jobs (fun _ => 0) i h,
    occUpto_eq_occIn jobs i h]
  simp

theorem occUpto_pos (jobs : List Job) (i : Nat) : 1 ≤ occUpto jobs i := by
  rw [occUpto]
  have h3 : List.range (i + 1) = List.range i ++ [i] := List.range_succ i
  rw [h3, List.filter_append]
  simp

theorem occUpto_strict_mono (jobs : List Job) (i j : Nat) (hij : i < j)
    (hbase : base_label (jobAt jobs i) = base_label (jobAt jobs j)) :
    occUpto jobs i < occUpto jobs j := by
  rw [occUpto, occUpto, hbase]
  have h1 : List.Sublist (List.range (i + 1)) (List.range j) :=
    List.range_sublist.mpr (by omega)
  have h2 := (h1.filter (fun k => base_label (jobAt jobs k) == base_label (jobAt jobs j))).length_le
  have h3 : List.range (j + 1) = List.range j ++ [j] := List.range_succ j
  rw [h3, List.filter_append]
  simp only [List.length_append]
  have h4 : (List.filter (fun k => base_label (jobAt jobs k) == base_label (jobAt jobs j)) [j]).length = 1 := by
    simp [List.filter_cons]
  omega

theorem string_data_inj {s t : String} (h : s.data = t.data) : s = t := by
  cases s; cases t; exact congrArg String.mk h

theorem run_label_ne (b : String) (c c' : Nat) (hc : 1 ≤ c) (hc' : 1 ≤ c') (hne : c ≠ c') :
    (if c = 1 then b else b ++ " (run " ++ Nat.repr c ++ ")") ≠
      (if c' = 1 then b else b ++ " (run " ++ Nat.repr c' ++ ")") := by
  split_ifs with h1 h2 h2
  · omega
  · intro he
    have hlen := congrArg String.length he
    simp only [String.length_append] at hlen
    have h5 : (" (run ").length = 6 := rfl
    have h6 : (")").length = 1 := rfl
    omega
  · intro he
    have hlen := congrArg String.length he
    simp only [String.length_append] at hlen
    have h5 : (" (run ").length = 6 := rfl
    have h6 : (")").length = 1 := rfl
    omega
  · intro he
    have hd := congrArg String.data he
    simp only [String.data_append] at hd
    have h7 := List.append_cancel_right hd
    have h8 := List.append_cancel_left h7
    exact hne (repr_injective (string_data_inj h8))

/-- C9 (counterexample): display labels are not pairwise distinct across
different base labels: with jobs `r@h`, `r@h`, `r@h (run 2)` (the third
job's host is literally `"h (run 2)"`), the second job's disambiguated
display label collides with the third job's plain base label. -/
theorem c9_counterexample :
    display_labels [⟨"r", "h", []⟩, ⟨"r", "h", []⟩, ⟨"r", "h (run 2)", []⟩] =
      ["r@h", "r@h (run 2)", "r@h (run 2)"] ∧
    ¬ (display_labels [⟨"r", "h", []⟩, ⟨"r", "h", []⟩, ⟨"r", "h (run 2)", []⟩]).Nodup := by
  constructor
  · rfl
  · decide

/-- C9 (amended): each job's display label is its base label `role@host`
when it is the first job with that base label, and `"{base} (run N)"` for
the N-th job with that base label (N ≥ 2) in registration order; display
labels of jobs sharing a base label are pairwise distinct (so duplicated
(role, host) pairs stay distinguishable), though labels of jobs with
different base labels may collide. -/
theorem c9_display_labels_amended (jobs : List Job) :
    (display_labels jobs).length = jobs.length ∧
    (∀ i, i < jobs.length →
      dLabel jobs i =
        (if occUpto jobs i = 1 then base_label (jobAt jobs i)
         else base_label (jobAt jobs i) ++ " (run " ++ Nat.repr (occUpto jobs i) ++ ")")) ∧
    (∀ i j, i < j → j < jobs.length →
      base_label (jobAt jobs i) = base_label (jobAt jobs j) →
      dLabel jobs i ≠ dLabel jobs j) := by
  refine ⟨displayLabelsAux_length jobs _, fun i h => dLabel_formula jobs i h, ?_⟩
  intro i j hij hj hbase
  rw [dLabel_formula jobs i (by omega), dLabel_formula jobs j hj, hbase]
  exact run_label_ne _ _ _ (occUpto_pos jobs i) (occUpto_pos jobs j)
    (Nat.ne_of_lt (occUpto_strict_mono jobs i j hij hbase))

/-- C9 (witness): two duplicate `r@h` jobs get distinct display labels. -/
theorem c9_witness :
    dLabel [⟨"r", "h", []⟩, ⟨"r", "h", []⟩] 1 = "r@h (run 2)" ∧
    dLabel [⟨"r", "h", []⟩, ⟨"r", "h", []⟩] 0 ≠ dLabel [⟨"r", "h", []⟩, ⟨"r", "h", []⟩] 1 := by
  refine ⟨rfl, ?_⟩
  exact (c9_display_labels_amended [⟨"r", "h", []⟩, ⟨"r", "h", []⟩]).2.2 0 1
    (by decide) (by decide) rfl

/-! ### Graph construction: delta characterization and invariants -/

/-- Missing-target entries contributed by one prerequisite pattern. -/
def mtDeltaDep (jobs : List Job) (jparse : String → Option JVal) (d : String) :
    List String :=
  if depAction jobs jparse d = DepAction.warnSkip then [d] else []

/-- Missing-dependency entries contributed by one prerequisite pattern. -/
def mdDeltaDep (jobs : List Job) (jparse : String → Option JVal) (d : String) :
    List String :=
  if depAction jobs jparse d = DepAction.missingDep then [d] else []

/-- Missing-target entries contributed by a prerequisite list. -/
def mtDeltaDeps (jobs : List Job) (jparse : String → Option JVal) :
    List String → List String
  | [] => []
  | d :: ds => mtDeltaDep jobs jparse d ++ mtDeltaDeps jobs jparse ds

/-- Missing-dependency entries contributed by a prerequisite list. -/
def mdDeltaDeps (jobs : List Job) (jparse : String → Option JVal) :
    List String → List String
  | [] => []
  | d :: ds => mdDeltaDep jobs jparse d ++ mdDeltaDeps jobs jparse ds

theorem addOneEdge_missing (d t : Nat) (g : GraphParts) :
    (addOneEdge d t g).missing_targets = g.missing_targets ∧
    (addOneEdge d t g).missing_deps = g.missing_deps := ⟨rfl, rfl⟩

theorem foldAddOne_missing (t : Nat) :
    ∀ (ds : List Nat) (g : GraphParts),
      (ds.foldl (fun g d => addOneEdge d t g) g).missing_targets = g.missing_targets ∧
      (ds.foldl (fun g d => addOneEdge d t g) g).missing_deps = g.missing_deps := by
  intro ds
  induction ds with
  | nil => intro g; exact ⟨rfl, rfl⟩
  | cons d ds ih => intro g; simpa using ih (addOneEdge d t g)

theorem addEdges_missing (targetIds depIds : List Nat) (g : GraphParts) :
    (addEdges targetIds depIds g).missing_targets = g.missing_targets ∧
    (addEdges targetIds depIds g).missing_deps = g.missing_deps := by
  induction targetIds generalizing g with
  | nil => exact ⟨rfl, rfl⟩
  | cons t ts ih =>
    have h0 := foldAddOne_missing t depIds g
    have h1 := ih (depIds.foldl (fun g d => addOneEdge d t g) g)
    simp only [addEdges, List.foldl_cons] at h1 ⊢
    exact ⟨h1.1.trans h0.1, h1.2.trans h0.2⟩

/-- Missing-entry deltas of a whole declaration. -/
def mtDeltaDecl (jobs : List Job) (jparse : String → Option JVal)
    (decl : String × List String) : List String :=
  if targetIdsOf jobs jparse decl.1 = [] then [decl.1]
  else mtDeltaDeps jobs jparse decl.2

/-- Missing-dependency delta of a whole declaration. -/
def mdDeltaDecl (jobs : List Job) (jparse : String → Option JVal)
    (decl : String × List String) : List String :=
  if targetIdsOf jobs jparse decl.1 = [] then []
  else mdDeltaDeps jobs jparse decl.2

/-- Missing-target entries of a whole declaration list. -/
def mtDeltaAll (jobs : List Job) (jparse : String → Option JVal) :
    List (String × List String) → List String
  | [] => []
  | decl :: rest => mtDeltaDecl jobs jparse decl ++ mtDeltaAll jobs jparse rest

/-- Missing-dependency entries of a whole declaration list. -/
def mdDeltaAll (jobs : List Job) (jparse : String → Option JVal) :
    List (String × List String) → List String
  | [] => []
  | decl :: rest => mdDeltaDecl jobs jparse decl ++ mdDeltaAll jobs jparse rest

theorem addOneEdge_set (d t : Nat) (g : GraphParts) (m m' : List String) :
    addOneEdge d t { g with missing_targets := m, missing_deps := m' } =
      { addOneEdge d t g with missing_targets := m, missing_deps := m' } := rfl

theorem foldAddOne_set (t : Nat) :
    ∀ (ds : List Nat) (g : GraphParts) (m m' : List String),
      ds.foldl (fun g d => addOneEdge d t g) { g with missing_targets := m, missing_deps := m' } =
        { ds.foldl (fun g d => addOneEdge d t g) g with missing_targets := m, missing_deps := m' } := by
  intro ds
  induction ds with
  | nil => intro g m m'; rfl
  | cons d ds ih =>
    intro g m m'
    simp only [List.foldl_cons, addOneEdge_set]
    exact ih (addOneEdge d t g) m m'

theorem addEdges_set (targetIds depIds : List Nat) (g : GraphParts) (m m' : List String) :
    addEdges targetIds depIds { g with missing_targets := m, missing_deps := m' } =
      { addEdges targetIds depIds g with missing_targets := m, missing_deps := m' } := by
  induction targetIds generalizing g with
  | nil => rfl
  | cons t ts ih =>
    simp only [addEdges, List.foldl_cons] at ih ⊢
    rw [foldAddOne_set]
    exact ih (depIds.foldl (fun g d => addOneEdge d t g) g)

theorem processDep_free (jobs : List Job) (jparse : String → Option JVal)
    (targetIds : List Nat) (d : String) (g : GraphParts) (m m' : List String) :
    processDep jobs jparse targetIds { g with missing_targets := m, missing_deps := m' } d =
      { processDep jobs jparse targetIds g d with
        missing_targets := m ++ mtDeltaDep jobs jparse d,
        missing_deps := m' ++ mdDeltaDep jobs jparse d } := by
  cases h : depAction jobs jparse d with
  | warnSkip => simp [processDep, h, mtDeltaDep, mdDeltaDep]
  | missingDep => simp [processDep, h, mtDeltaDep, mdDeltaDep]
  | addDep ids =>
    simp only [processDep, h, mtDeltaDep, mdDeltaDep]
    rw [addEdges_set]
    simp

theorem foldProcessDep_free (jobs : List Job) (jparse : String → Option JVal)
    (targetIds : List Nat) :
    ∀ (ds : List String) (g : GraphParts) (m m' : List String),
      ds.foldl (processDep jobs jparse targetIds)
          { g with missing_targets := m, missing_deps := m' } =
        { ds.foldl (processDep jobs jparse targetIds) g with
          missing_targets := m ++ mtDeltaDeps jobs jparse ds,
          missing_deps := m' ++ mdDeltaDeps jobs jparse ds } := by
  intro ds
  induction ds with
  | nil => intro g m m'; simp [mtDeltaDeps, mdDeltaDeps]
  | cons d ds ih =>
    intro g m m'
    simp only [List.foldl_cons, mtDeltaDeps, mdDeltaDeps]
    rw [processDep_free, ih (processDep jobs jparse targetIds g d)]
    simp

theorem foldProcessDep_missing (jobs : List Job) (jparse : String → Option JVal)
    (targetIds : List Nat) (ds : List String) (g : GraphParts) :
    (ds.foldl (processDep jobs jparse targetIds) g).missing_targets =
        g.missing_targets ++ mtDeltaDeps jobs jparse ds ∧
    (ds.foldl (processDep jobs jparse targetIds) g).missing_deps =
        g.missing_deps ++ mdDeltaDeps jobs jparse ds := by
  have h := foldProcessDep_free jobs jparse targetIds ds g
    g.missing_targets g.missing_deps
  constructor
  · have := congrArg GraphParts.missing_targets h
    simpa using this
  · have := congrArg GraphParts.missing_deps h
    simpa using this

theorem processDecl_free (jobs : List Job) (jparse : String → Option JVal)
    (decl : String × List String) (g : GraphParts) (m m' : List String) :
    processDecl jobs jparse { g with missing_targets := m, missing_deps := m' } decl =
      { processDecl jobs jparse g decl with
        missing_targets := m ++ mtDeltaDecl jobs jparse decl,
        missing_deps := m' ++ mdDeltaDecl jobs jparse decl } := by
  by_cases ht : targetIdsOf jobs jparse decl.1 = []
  · simp [processDecl, ht, mtDeltaDecl, mdDeltaDecl]
  · simp only [processDecl, ht, if_false, mtDeltaDecl, mdDeltaDecl]
    exact foldProcessDep_free jobs jparse _ decl.2 g m m'

theorem foldProcessDecl_free (jobs : List Job) (jparse : String → Option JVal) :
    ∀ (deps : List (String × List String)) (g : GraphParts) (m m' : List String),
      deps.foldl (processDecl jobs jparse)
          { g with missing_targets := m, missing_deps := m' } =
        { deps.foldl (processDecl jobs jparse) g with
          missing_targets := m ++ mtDeltaAll jobs jparse deps,
          missing_deps := m' ++ mdDeltaAll jobs jparse deps } := by
  intro deps
  induction deps with
  | nil => intro g m m'; simp [mtDeltaAll, mdDeltaAll]
  | cons decl rest ih =>
    intro g m m'
    simp only [List.foldl_cons, mtDeltaAll, mdDeltaAll]
    rw [processDecl_free, ih (processDecl jobs jparse g decl)]
    simp

theorem buildParts_missing (jobs : List Job) (jparse : String → Option JVal)
    (deps : List (String × List String)) :
    (buildParts jobs jparse deps).missing_targets = mtDeltaAll jobs jparse deps ∧
    (buildParts jobs jparse deps).missing_deps = mdDeltaAll jobs jparse deps := by
  have h := foldProcessDecl_free jobs jparse deps ⟨[], [], fun _ => 0, fun _ => []⟩ [] []
  rw [buildParts]
  constructor
  · have := congrArg GraphParts.missing_targets h
    simpa using this
  · have := congrArg GraphParts.missing_deps h
    simpa using this

/-! ### C10: in-degree counts edge occurrences -/

/-- Invariant of graph construction: in-degrees count incoming edge
occurrences, and adjacency lists mention only in-range jobs. -/
def BuildInv (n : Nat) (g : GraphParts) : Prop :=
  (∀ j, g.in_degree j = ∑ i ∈ Finset.range n, ((g.edges i).count j : Int)) ∧
  (∀ i, n ≤ i → g.edges i = []) ∧
  (∀ i B, B ∈ g.edges i → B < n)

theorem addOneEdge_inv (n d t : Nat) (g : GraphParts) (hd : d < n) (ht : t < n)
    (h : BuildInv n g) : BuildInv n (addOneEdge d t g) := by
  obtain ⟨h1, h2, h3⟩ := h
  refine ⟨?_, ?_, ?_⟩
  · intro j
    have hsingle : ((List.count j [t] : Nat) : Int) = if j = t then 1 else 0 := by
      by_cases hj : j = t
      · subst hj; simp
      · simp [List.count_cons, hj]
    have hcount : ∀ i, (((addOneEdge d t g).edges i).count j : Int) =
        ((g.edges i).count j : Int) + (if i = d then (if j = t then 1 else 0) else 0) := by
      intro i
      simp only [addOneEdge]
      by_cases hi : i = d
      · subst hi
        rw [if_pos rfl, List.count_append]
        push_cast
        rw [hsingle]
        simp
      · simp [hi]
    have hsum : ∑ i ∈ Finset.range n, (((addOneEdge d t g).edges i).count j : Int) =
        (∑ i ∈ Finset.range n, ((g.edges i).count j : Int)) + (if j = t then 1 else 0) := by
      rw [Finset.sum_congr rfl (fun i _ => hcount i), Finset.sum_add_distrib]
      congr 1
      rw [Finset.sum_ite_eq' (Finset.range n) d (fun _ => if j = t then (1 : Int) else 0)]
      simp [hd]
    rw [hsum, ← h1 j]
    simp only [addOneEdge]
    by_cases hj : j = t
    · simp [hj]
    · simp [hj]
  · intro i hi
    simp only [addOneEdge]
    rw [if_neg (by omega : ¬ i = d)]
    exact h2 i hi
  · intro i B hB
    simp only [addOneEdge] at hB
    by_cases hi : i = d
    · rw [if_pos hi] at hB
      rcases List.mem_append.mp hB with hB | hB
      · exact h3 d B hB
      · simp at hB; omega
    · rw [if_neg hi] at hB
      exact h3 i B hB

theorem foldAddOne_inv (n t : Nat) (ht : t < n) :
    ∀ (ds : List Nat) (g : GraphParts), (∀ x ∈ ds, x < n) → BuildInv n g →
      BuildInv n (ds.foldl (fun g d => addOneEdge d t g) g) := by
  intro ds
  induction ds with
  | nil => intro g _ h; exact h
  | cons d ds ih =>
    intro g hds h
    simp only [List.foldl_cons]
    exact ih (addOneEdge d t g) (fun x hx => hds x (by simp [hx]))
      (addOneEdge_inv n d t g (hds d (by simp)) ht h)

theorem addEdges_inv (n : Nat) (targetIds depIds : List Nat) (g : GraphParts)
    (hts : ∀ x ∈ targetIds, x < n) (hds : ∀ x ∈ depIds, x < n) (h : BuildInv n g) :
    BuildInv n (addEdges targetIds depIds g) := by
  induction targetIds generalizing g with
  | nil => exact h
  | cons t ts ih =>
    simp only [addEdges, List.foldl_cons] at ih ⊢
    exact ih _ (fun x hx => hts x (by simp [hx]))
      (foldAddOne_inv n t (hts t (by simp)) depIds g hds h)

theorem role_to_ids_lt (jobs : List Job) (r : String) :
    ∀ x ∈ role_to_ids jobs r, x < jobs.length := by
  intro x hx
  simp only [role_to_ids, List.mem_filter, List.mem_range] at hx
  exact hx.1

theorem target_pool_lt (jobs : List Job) (base : String) :
    ∀ x ∈ target_pool jobs base, x < jobs.length := by
  intro x hx
  rw [target_pool] at hx
  split at hx
  · simp only [List.mem_filter, List.mem_range] at hx
    exact hx.1
  · exact role_to_ids_lt jobs base x hx

theorem targetIdsOf_lt (jobs : List Job) (jparse : String → Option JVal) (k : String) :
    ∀ x ∈ targetIdsOf jobs jparse k, x < jobs.length := by
  intro x hx
  simp only [targetIdsOf, List.mem_filter] at hx
  exact target_pool_lt jobs _ x hx.1

theorem depAction_addDep_lt (jobs : List Job) (jparse : String → Option JVal)
    (d : String) (ids : List Nat)
    (h : depAction jobs jparse d = DepAction.addDep ids) :
    ∀ x ∈ ids, x < jobs.length := by
  rw [depAction] at h
  rcases hpt : parse_target jparse d with ⟨depBase, depVars⟩
  rw [hpt] at h
  simp only at h
  split at h
  · split at h
    · exact absurd h (by simp)
    · split at h
      · exact absurd h (by simp)
      · split at h
        · exact absurd h (by simp)
        · split at h
          · exact absurd h (by simp)
          · rw [DepAction.addDep.injEq] at h
            subst h
            intro x hx
            have := List.mem_filter.mp hx
            have := List.mem_filter.mp this.1
            simp only [List.mem_range] at this
            exact this.1
  · split at h
    · exact absurd h (by simp)
    · split at h
      · exact absurd h (by simp)
      · split at h
        · exact absurd h (by simp)
        · rw [DepAction.addDep.injEq] at h
          subst h
          intro x hx
          have := List.mem_filter.mp hx
          exact role_to_ids_lt jobs depBase x this.1

theorem processDep_inv (jobs : List Job) (jparse : String → Option JVal)
    (targetIds : List Nat) (hts : ∀ x ∈ targetIds, x < jobs.length)
    (d : String) (g : GraphParts) (h : BuildInv jobs.length g) :
    BuildInv jobs.length (processDep jobs jparse targetIds g d) := by
  cases ha : depAction jobs jparse d with
  | warnSkip => simpa [processDep, ha] using h
  | missingDep => simpa [processDep, ha] using h
  | addDep ids =>
    simp only [processDep, ha]
    exact addEdges_inv jobs.length targetIds ids g hts
      (depAction_addDep_lt jobs jparse d ids ha) h

theorem processDecl_inv (jobs : List Job) (jparse : String → Option JVal)
    (decl : String × List String) (g : GraphParts) (h : BuildInv jobs.length g) :
    BuildInv jobs.length (processDecl jobs jparse g decl) := by
  by_cases ht : targetIdsOf jobs jparse decl.1 = []
  · simpa [processDecl, ht] using h
  · simp only [processDecl, ht, if_false]
    have : ∀ (ds : List String) (g : GraphParts), BuildInv jobs.length g →
        BuildInv jobs.length (ds.foldl (processDep jobs jparse (targetIdsOf jobs jparse decl.1)) g) := by
      intro ds
      induction ds with
      | nil => intro g h; exact h
      | cons d ds ih =>
        intro g h
        simp only [List.foldl_cons]
        exact ih _ (processDep_inv jobs jparse _ (targetIdsOf_lt jobs jparse decl.1) d g h)
    exact this decl.2 g h

theorem buildParts_inv (jobs : List Job) (jparse : String → Option JVal)
    (deps : List (String × List String)) : BuildInv jobs.length (buildParts jobs jparse deps) := by
  rw [buildParts]
  have hinit : BuildInv jobs.length ⟨[], [], fun _ => 0, fun _ => []⟩ := by
    refine ⟨fun j => ?_, fun i _ => rfl, fun i B hB => by simp at hB⟩
    simp
  generalize hg : (⟨[], [], fun _ => 0, fun _ => []⟩ : GraphParts) = g at hinit ⊢
  clear hg
  induction deps generalizing g with
  | nil => exact hinit
  | cons decl rest ih =>
    simp only [List.foldl_cons]
    exact ih _ (processDecl_inv jobs jparse decl g hinit)

/-- C10: whenever dependency-graph construction succeeds, the returned
structures are consistent: every job's in-degree equals the total number
of occurrences of that job across all adjacency lists (self-edges and
parallel edges counted with multiplicity). -/
theorem c10_in_degree_counts (jobs : List Job) (jparse : String → Option JVal)
    (deps : List (String × List String)) (deg : Nat → Int) (edges : Nat → List Nat)
    (h : build_dependency_graph jobs jparse deps = some (deg, edges)) :
    ∀ j, deg j = ∑ i ∈ Finset.range jobs.length, ((edges i).count j : Int) := by
  rw [build_dependency_graph] at h
  split at h
  · rw [Option.some.injEq, Prod.mk.injEq] at h
    obtain ⟨rfl, rfl⟩ := h
    exact (buildParts_inv jobs jparse deps).1
  · exact absurd h (by simp)

/-- Concrete two-job set used by several witnesses (Scenario A's job set). -/
def exJobs2 : List Job :=
  [⟨"role1", "mac1", [("test1", JVal.str "test1")]⟩,
   ⟨"role2", "mac1", [("test1", JVal.str "test1")]⟩]

/-- A JSON parser stub that always fails (no pattern here carries a filter). -/
def noParse : String → Option JVal := fun _ => none

/-- Execution engine stub: every job returns status 0. -/
def allOk : Nat → Option Nat := fun _ => some 0

/-- C10 (witness): the invariant evaluated on Scenario A's graph
(role2 depends on role1). -/
theorem c10_witness :
    (buildParts exJobs2 noParse [("role2", ["role1"])]).in_degree 1 =
      ∑ i ∈ Finset.range exJobs2.length,
        (((buildParts exJobs2 noParse [("role2", ["role1"])]).edges i).count 1 : Int) :=
  c10_in_degree_counts exJobs2 noParse [("role2", ["role1"])]
    (buildParts exJobs2 noParse [("role2", ["role1"])]).in_degree
    (buildParts exJobs2 noParse [("role2", ["role1"])]).edges (by rfl) 1

/-! ### C2: missing dependencies abort the run -/

/-- Resolved candidate pool of a prerequisite pattern (the `@`-dispatch in
the source coincides with the target selector `target_pool`). -/
def depPoolOf (jobs : List Job) (jparse : String → Option JVal) (d : String) : List Nat :=
  target_pool jobs (parse_target jparse d).1

/-- Pool filtered by the pattern's vars filter. -/
def depMatchedOf (jobs : List Job) (jparse : String → Option JVal) (d : String) : List Nat :=
  (depPoolOf jobs jparse d).filter
    (fun i => vars_match (jobAt jobs i).vars (parse_target jparse d).2)

/-- The warn-only case: the base names a role+host, no job has that base
label, but the bare role exists in the job set. -/
def WarnCase (jobs : List Job) (jparse : String → Option JVal) (d : String) : Prop :=
  (parse_target jparse d).1.data.contains '@' = true ∧
  depPoolOf jobs jparse d = [] ∧
  ∃ j ∈ jobs, j.role = roleOf (parse_target jparse d).1

instance (jobs : List Job) (jparse : String → Option JVal) (d : String) :
    Decidable (WarnCase jobs jparse d) := by
  unfold WarnCase
  infer_instance

theorem vars_match_nil (v : List (String × JVal)) : vars_match v [] = true := rfl

theorem filter_vars_match_nil (jobs : List Job) (l : List Nat) :
    l.filter (fun i => vars_match (jobAt jobs i).vars []) = l := by
  have h : ∀ x ∈ l, (vars_match (jobAt jobs x).vars []) = (fun _ : Nat => true) x :=
    fun x _ => rfl
  rw [List.filter_congr h, List.filter_true]

theorem depAction_classify (jobs : List Job) (jparse : String → Option JVal) (d : String) :
    (depAction jobs jparse d = DepAction.warnSkip ↔ WarnCase jobs jparse d) ∧
    (depAction jobs jparse d = DepAction.missingDep ↔
      ((depPoolOf jobs jparse d = [] ∧ ¬ WarnCase jobs jparse d) ∨
       (depPoolOf jobs jparse d ≠ [] ∧ (parse_target jparse d).2 ≠ [] ∧
        depMatchedOf jobs jparse d = []))) := by
  rcases hpt : parse_target jparse d with ⟨depBase, depVars⟩
  have hpool : depPoolOf jobs jparse d = target_pool jobs depBase := by
    rw [depPoolOf, hpt]
  have hmatched : depMatchedOf jobs jparse d =
      (target_pool jobs depBase).filter (fun i => vars_match (jobAt jobs i).vars depVars) := by
    rw [depMatchedOf, depPoolOf, hpt]
  have hwc : WarnCase jobs jparse d ↔
      (depBase.data.contains '@' = true ∧ target_pool jobs depBase = [] ∧
        ∃ j ∈ jobs, j.role = roleOf depBase) := by
    rw [WarnCase, hpt, hpool]
  rw [depAction, hpt]
  simp only []
  by_cases hat : depBase.data.contains '@' = true
  · have hpool2 : target_pool jobs depBase =
        (List.range jobs.length).filter (fun i => base_label (jobAt jobs i) == depBase) := by
      rw [target_pool, if_pos hat]
    have hany : (jobs.any (fun j => j.role == roleOf depBase) = true) ↔
        (∃ j ∈ jobs, j.role = roleOf depBase) := by
      simp [List.any_eq_true]
    rw [if_pos hat]
    by_cases hw : ((List.range jobs.length).filter
        (fun i => base_label (jobAt jobs i) == depBase) = [] ∧
        jobs.any (fun j => j.role == roleOf depBase) = true)
    · rw [if_pos hw]
      have hwc' : WarnCase jobs jparse d := by
        rw [hwc]
        exact ⟨hat, by rw [hpool2]; exact hw.1, hany.mp hw.2⟩
      constructor
      · simp [hwc']
      · constructor
        · intro h; exact absurd h (by simp)
        · intro h
          rcases h with ⟨_, hnw⟩ | ⟨hp, _, _⟩
          · exact absurd hwc' hnw
          · exact absurd (by rw [hpool, hpool2]; exact hw.1) hp
    · rw [if_neg hw]
      have hnwc : ¬ WarnCase jobs jparse d := by
        rw [hwc]
        intro ⟨_, hp, hex⟩
        exact hw ⟨by rw [← hpool2]; exact hp, hany.mpr hex⟩
      by_cases hp : (List.range jobs.length).filter
          (fun i => base_label (jobAt jobs i) == depBase) = []
      · rw [if_pos hp]
        refine ⟨⟨fun h => absurd h (by simp), fun h => absurd h hnwc⟩, ?_, ?_⟩
        · intro _
          exact Or.inl ⟨by rw [hpool, hpool2]; exact hp, hnwc⟩
        · intro _; rfl
      · rw [if_neg hp]
        have hpne : depPoolOf jobs jparse d ≠ [] := by
          rw [hpool, hpool2]; exact hp
        by_cases hv1 : depVars ≠ [] ∧ (List.filter (fun i => base_label (jobAt jobs i) == depBase)
            (List.range jobs.length)).filter (fun i => vars_match (jobAt jobs i).vars depVars) = []
        · rw [if_pos hv1]
          refine ⟨⟨fun h => absurd h (by simp), fun h => absurd h hnwc⟩, ?_, ?_⟩
          · intro _
            refine Or.inr ⟨hpne, hv1.1, ?_⟩
            rw [hmatched, hpool2]
            exact hv1.2
          · intro _; rfl
        · rw [if_neg hv1]
          by_cases hv2 : depVars = [] ∧ (List.filter (fun i => base_label (jobAt jobs i) == depBase)
              (List.range jobs.length)).filter (fun i => vars_match (jobAt jobs i).vars depVars) = []
          · exfalso
            obtain ⟨hnil, hflt⟩ := hv2
            subst hnil
            rw [filter_vars_match_nil] at hflt
            exact hp hflt
          · rw [if_neg hv2]
            refine ⟨⟨fun h => absurd h (by simp), fun h => absurd h hnwc⟩, ?_, ?_⟩
            · intro h; exact absurd h (by simp)
            · intro h
              rcases h with ⟨hpe, _⟩ | ⟨_, hvne, hm⟩
              · exact absurd hpe hpne
              · exfalso
                rw [hmatched, hpool2] at hm
                exact hv1 ⟨hvne, hm⟩
  · have hat' : depBase.data.contains '@' = false := by
      cases hc : depBase.data.contains '@'
      · rfl
      · exact absurd hc hat
    have hpool2 : target_pool jobs depBase = role_to_ids jobs depBase := by
      rw [target_pool, if_neg hat]
    have hnwc : ¬ WarnCase jobs jparse d := by
      rw [hwc]
      intro ⟨hc, _, _⟩
      exact hat hc
    rw [if_neg hat]
    by_cases hp : role_to_ids jobs depBase = []
    · rw [if_pos hp]
      refine ⟨⟨fun h => absurd h (by simp), fun h => absurd h hnwc⟩, ?_, ?_⟩
      · intro _
        exact Or.inl ⟨by rw [hpool, hpool2]; exact hp, hnwc⟩
      · intro _; rfl
    · rw [if_neg hp]
      have hpne : depPoolOf jobs jparse d ≠ [] := by
        rw [hpool, hpool2]; exact hp
      by_cases hv1 : depVars ≠ [] ∧ (role_to_ids jobs depBase).filter
          (fun i => vars_match (jobAt jobs i).vars depVars) = []
      · rw [if_pos hv1]
        refine ⟨⟨fun h => absurd h (by simp), fun h => absurd h hnwc⟩, ?_, ?_⟩
        · intro _
          refine Or.inr ⟨hpne, hv1.1, ?_⟩
          rw [hmatched, hpool2]
          exact hv1.2
        · intro _; rfl
      · rw [if_neg hv1]
        by_cases hv2 : depVars = [] ∧ (role_to_ids jobs depBase).filter
            (fun i => vars_match (jobAt jobs i).vars depVars) = []
        · exfalso
          obtain ⟨hnil, hflt⟩ := hv2
          subst hnil
          rw [filter_vars_match_nil] at hflt
          exact hp hflt
        · rw [if_neg hv2]
          refine ⟨⟨fun h => absurd h (by simp), fun h => absurd h hnwc⟩, ?_, ?_⟩
          · intro h; exact absurd h (by simp)
          · intro h
            rcases h with ⟨hpe, _⟩ | ⟨_, hvne, hm⟩
            · exact absurd hpe hpne
            · exfalso
              rw [hmatched, hpool2] at hm
              exact hv1 ⟨hvne, hm⟩

theorem mem_mdDeltaDeps (jobs : List Job) (jparse : String → Option JVal)
    (ds : List String) (d : String) (hd : d ∈ ds)
    (ha : depAction jobs jparse d = DepAction.missingDep) :
    d ∈ mdDeltaDeps jobs jparse ds := by
  induction ds with
  | nil => simp at hd
  | cons e es ih =>
    rw [mdDeltaDeps, List.mem_append]
    rcases List.mem_cons.mp hd with rfl | hmem
    · left
      rw [mdDeltaDep, if_pos ha]
      simp
    · right
      exact ih hmem

theorem mem_mdDeltaAll (jobs : List Job) (jparse : String → Option JVal)
    (deps : List (String × List String)) (k : String) (ds : List String) (d : String)
    (hdecl : (k, ds) ∈ deps) (ht : targetIdsOf jobs jparse k ≠ [])
    (hmem : d ∈ mdDeltaDeps jobs jparse ds) :
    d ∈ mdDeltaAll jobs jparse deps := by
  induction deps with
  | nil => simp at hdecl
  | cons decl rest ih =>
    rw [mdDeltaAll, List.mem_append]
    rcases List.mem_cons.mp hdecl with rfl | hmem2
    · left
      rw [mdDeltaDecl, if_neg ht]
      exact hmem
    · right
      exact ih hmem2

/-- C2: if any prerequisite pattern of a declaration with a non-empty
resolved target set is classified as a missing dependency (empty candidate
pool with the warn-only case not applying, or a non-empty vars filter
matching no candidate), then the pattern is recorded among the missing
dependencies, graph construction reports the distinct raw patterns as an
error, and the whole run aborts with exit code 1 before any job is
launched. -/
theorem c2_missing_dependency_aborts
    (jobs : List Job) (jparse : String → Option JVal)
    (deps : List (String × List String)) (mp : Nat) (outcome : Nat → Option Nat)
    (picks : List Nat) (k : String) (ds : List String) (d : String)
    (hdecl : (k, ds) ∈ deps) (hd : d ∈ ds)
    (ht : targetIdsOf jobs jparse k ≠ [])
    (hmiss : (depPoolOf jobs jparse d = [] ∧ ¬ WarnCase jobs jparse d) ∨
             (depPoolOf jobs jparse d ≠ [] ∧ (parse_target jparse d).2 ≠ [] ∧
              depMatchedOf jobs jparse d = [])) :
    d ∈ (buildParts jobs jparse deps).missing_deps ∧
    run_parallel jobs jparse deps mp outcome picks =
      RunResult.missingDeps (distinctSorted (buildParts jobs jparse deps).missing_deps) ∧
    (run_parallel jobs jparse deps mp outcome picks).exitCode = 1 ∧
    (run_parallel jobs jparse deps mp outcome picks).launched = [] ∧
    (distinctSorted (buildParts jobs jparse deps).missing_deps).Nodup ∧
    (∀ s, s ∈ distinctSorted (buildParts jobs jparse deps).missing_deps ↔
      s ∈ (buildParts jobs jparse deps).missing_deps) := by
  have ha : depAction jobs jparse d = DepAction.missingDep :=
    (depAction_classify jobs jparse d).2.mpr hmiss
  have hmem : d ∈ (buildParts jobs jparse deps).missing_deps := by
    rw [(buildParts_missing jobs jparse deps).2]
    exact mem_mdDeltaAll jobs jparse deps k ds d hdecl ht
      (mem_mdDeltaDeps jobs jparse ds d hd ha)
  have hne : (buildParts jobs jparse deps).missing_deps ≠ [] := by
    intro h
    rw [h] at hmem
    simp at hmem
  have hrun : run_parallel jobs jparse deps mp outcome picks =
      RunResult.missingDeps (distinctSorted (buildParts jobs jparse deps).missing_deps) := by
    rw [run_parallel]
    simp [hne]
  refine ⟨hmem, hrun, by rw [hrun]; rfl, by rw [hrun]; rfl, ?_, ?_⟩
  · exact ((List.mergeSort_perm _ _).nodup_iff).mpr (List.nodup_dedup _)
  · intro s
    rw [distinctSorted, (List.mergeSort_perm _ _).mem_iff, List.mem_dedup]

/-- C2 (witness): Scenario B — `role2` declares a dependency on a role
absent from the job set; the run aborts with exit 1, launching nothing. -/
theorem c2_witness :
    (run_parallel exJobs2 noParse [("role2", ["missingrole"])] 5 allOk [0, 0]).exitCode = 1 ∧
    (run_parallel exJobs2 noParse [("role2", ["missingrole"])] 5 allOk [0, 0]).launched = [] ∧
    "missingrole" ∈ (buildParts exJobs2 noParse [("role2", ["missingrole"])]).missing_deps := by
  have h := c2_missing_dependency_aborts exJobs2 noParse [("role2", ["missingrole"])] 5 allOk
    [0, 0] "role2" ["missingrole"] "missingrole" (by decide) (by decide) (by decide)
    (Or.inl ⟨by decide, by decide⟩)
  exact ⟨h.2.2.1, h.2.2.2.1, h.1⟩

/-! ### C6: role-under-different-host prerequisites warn and are skipped -/

theorem GraphParts.ext4 (a b : GraphParts)
    (h1 : a.missing_targets = b.missing_targets) (h2 : a.missing_deps = b.missing_deps)
    (h3 : a.in_degree = b.in_degree) (h4 : a.edges = b.edges) : a = b := by
  cases a; cases b
  simp_all

theorem mtDeltaDeps_append (jobs : List Job) (jparse : String → Option JVal)
    (a b : List String) :
    mtDeltaDeps jobs jparse (a ++ b) =
      mtDeltaDeps jobs jparse a ++ mtDeltaDeps jobs jparse b := by
  induction a with
  | nil => simp [mtDeltaDeps]
  | cons x xs ih => simp [mtDeltaDeps, ih]

theorem mdDeltaDeps_append (jobs : List Job) (jparse : String → Option JVal)
    (a b : List String) :
    mdDeltaDeps jobs jparse (a ++ b) =
      mdDeltaDeps jobs jparse a ++ mdDeltaDeps jobs jparse b := by
  induction a with
  | nil => simp [mdDeltaDeps]
  | cons x xs ih => simp [mdDeltaDeps, ih]

theorem mtDeltaAll_append (jobs : List Job) (jparse : String → Option JVal)
    (a b : List (String × List String)) :
    mtDeltaAll jobs jparse (a ++ b) =
      mtDeltaAll jobs jparse a ++ mtDeltaAll jobs jparse b := by
  induction a with
  | nil => simp [mtDeltaAll]
  | cons x xs ih => simp [mtDeltaAll, ih]

theorem mdDeltaAll_append (jobs : List Job) (jparse : String → Option JVal)
    (a b : List (String × List String)) :
    mdDeltaAll jobs jparse (a ++ b) =
      mdDeltaAll jobs jparse a ++ mdDeltaAll jobs jparse b := by
  induction a with
  | nil => simp [mdDeltaAll]
  | cons x xs ih => simp [mdDeltaAll, ih]

theorem foldProcessDecl_missing (jobs : List Job) (jparse : String → Option JVal)
    (deps : List (String × List String)) (g : GraphParts) :
    (deps.foldl (processDecl jobs jparse) g).missing_targets =
        g.missing_targets ++ mtDeltaAll jobs jparse deps ∧
    (deps.foldl (processDecl jobs jparse) g).missing_deps =
        g.missing_deps ++ mdDeltaAll jobs jparse deps := by
  have h := foldProcessDecl_free jobs jparse deps g g.missing_targets g.missing_deps
  constructor
  · have := congrArg GraphParts.missing_targets h
    simpa using this
  · have := congrArg GraphParts.missing_deps h
    simpa using this

theorem processDep_warn_eq (jobs : List Job) (jparse : String → Option JVal)
    (t : List Nat) (d : String) (g : GraphParts)
    (hwa : depAction jobs jparse d = DepAction.warnSkip) :
    processDep jobs jparse t g d =
      { g with missing_targets := g.missing_targets ++ [d],
               missing_deps := g.missing_deps } := by
  simp [processDep, hwa]

/-- Graph components of a prerequisite fold ignore a warn-skipped entry. -/
theorem foldDep_insert_warn (jobs : List Job) (jparse : String → Option JVal)
    (t : List Nat) (l1 l2 : List String) (d : String) (g : GraphParts)
    (hwa : depAction jobs jparse d = DepAction.warnSkip) :
    ((l1 ++ d :: l2).foldl (processDep jobs jparse t) g).missing_deps =
        ((l1 ++ l2).foldl (processDep jobs jparse t) g).missing_deps ∧
    ((l1 ++ d :: l2).foldl (processDep jobs jparse t) g).in_degree =
        ((l1 ++ l2).foldl (processDep jobs jparse t) g).in_degree ∧
    ((l1 ++ d :: l2).foldl (processDep jobs jparse t) g).edges =
        ((l1 ++ l2).foldl (processDep jobs jparse t) g).edges ∧
    ((l1 ++ d :: l2).foldl (processDep jobs jparse t) g).missing_targets =
        g.missing_targets ++ (mtDeltaDeps jobs jparse l1 ++ d ::
          mtDeltaDeps jobs jparse l2) ∧
    ((l1 ++ l2).foldl (processDep jobs jparse t) g).missing_targets =
        g.missing_targets ++ (mtDeltaDeps jobs jparse l1 ++ mtDeltaDeps jobs jparse l2) := by
  have hmid : (l1 ++ d :: l2).foldl (processDep jobs jparse t) g =
      l2.foldl (processDep jobs jparse t)
        (processDep jobs jparse t (l1.foldl (processDep jobs jparse t) g) d) := by
    rw [List.foldl_append, List.foldl_cons]
  have hQd := processDep_warn_eq jobs jparse t d
    (l1.foldl (processDep jobs jparse t) g) hwa
  have hfree := foldProcessDep_free jobs jparse t l2
    (l1.foldl (processDep jobs jparse t) g)
    ((l1.foldl (processDep jobs jparse t) g).missing_targets ++ [d])
    (l1.foldl (processDep jobs jparse t) g).missing_deps
  have hleft : (l1 ++ d :: l2).foldl (processDep jobs jparse t) g =
      { l2.foldl (processDep jobs jparse t) (l1.foldl (processDep jobs jparse t) g) with
        missing_targets := ((l1.foldl (processDep jobs jparse t) g).missing_targets ++ [d])
          ++ mtDeltaDeps jobs jparse l2,
        missing_deps := (l1.foldl (processDep jobs jparse t) g).missing_deps
          ++ mdDeltaDeps jobs jparse l2 } := by
    rw [hmid, hQd]
    exact hfree
  have hright : (l1 ++ l2).foldl (processDep jobs jparse t) g =
      l2.foldl (processDep jobs jparse t) (l1.foldl (processDep jobs jparse t) g) := by
    rw [List.foldl_append]
  have hrmt := (foldProcessDep_missing jobs jparse t l2
    (l1.foldl (processDep jobs jparse t) g)).1
  have hrmd := (foldProcessDep_missing jobs jparse t l2
    (l1.foldl (processDep jobs jparse t) g)).2
  have hl1mt := (foldProcessDep_missing jobs jparse t l1 g).1
  have hl1md := (foldProcessDep_missing jobs jparse t l1 g).2
  refine ⟨?_, ?_, ?_, ?_, ?_⟩
  · rw [hleft, hright]
    simp [hrmd]
  · rw [hleft, hright]
  · rw [hleft, hright]
  · rw [hleft]
    simp only []
    rw [hl1mt]
    simp
  · rw [hright, hrmt, hl1mt]
    simp

/-- C6: a prerequisite pattern in the warn-only case (base contains `@`,
no job has that base label, the bare role portion exists in the job set)
within a declaration whose targets resolve non-empty is recorded as a
missing target (warning only); exactly that one prerequisite entry is
skipped — missing dependencies, in-degrees and edges are identical to the
build without the entry — and the whole run behaves identically (exit 0
absent other failures). -/
theorem c6_warn_only_skip (jobs : List Job) (jparse : String → Option JVal)
    (pre post : List (String × List String)) (k : String) (l1 l2 : List String)
    (d : String) (hwarn : WarnCase jobs jparse d)
    (ht : targetIdsOf jobs jparse k ≠ []) :
    d ∈ (buildParts jobs jparse (pre ++ (k, l1 ++ d :: l2) :: post)).missing_targets ∧
    (∃ mt1 mt2,
      (buildParts jobs jparse (pre ++ (k, l1 ++ d :: l2) :: post)).missing_targets =
        mt1 ++ d :: mt2 ∧
      (buildParts jobs jparse (pre ++ (k, l1 ++ l2) :: post)).missing_targets =
        mt1 ++ mt2) ∧
    (buildParts jobs jparse (pre ++ (k, l1 ++ d :: l2) :: post)).missing_deps =
      (buildParts jobs jparse (pre ++ (k, l1 ++ l2) :: post)).missing_deps ∧
    (buildParts jobs jparse (pre ++ (k, l1 ++ d :: l2) :: post)).in_degree =
      (buildParts jobs jparse (pre ++ (k, l1 ++ l2) :: post)).in_degree ∧
    (buildParts jobs jparse (pre ++ (k, l1 ++ d :: l2) :: post)).edges =
      (buildParts jobs jparse (pre ++ (k, l1 ++ l2) :: post)).edges ∧
    (∀ (mp : Nat) (outcome : Nat → Option Nat) (picks : List Nat),
      run_parallel jobs jparse (pre ++ (k, l1 ++ d :: l2) :: post) mp outcome picks =
        run_parallel jobs jparse (pre ++ (k, l1 ++ l2) :: post) mp outcome picks) := by
  have hwa : depAction jobs jparse d = DepAction.warnSkip :=
    (depAction_classify jobs jparse d).1.mpr hwarn
  have hg1eq : ∀ X2 : String × List String,
      buildParts jobs jparse (pre ++ X2 :: post) =
        post.foldl (processDecl jobs jparse)
          (processDecl jobs jparse (pre.foldl (processDecl jobs jparse)
            ⟨[], [], fun _ => 0, fun _ => []⟩) X2) := by
    intro X2
    rw [buildParts, List.foldl_append, List.foldl_cons]
  have hABcore := foldDep_insert_warn jobs jparse (targetIdsOf jobs jparse k) l1 l2 d
    (pre.foldl (processDecl jobs jparse) ⟨[], [], fun _ => 0, fun _ => []⟩) hwa
  have hA : processDecl jobs jparse
      (pre.foldl (processDecl jobs jparse) ⟨[], [], fun _ => 0, fun _ => []⟩)
      (k, l1 ++ d :: l2) =
      (l1 ++ d :: l2).foldl (processDep jobs jparse (targetIdsOf jobs jparse k))
        (pre.foldl (processDecl jobs jparse) ⟨[], [], fun _ => 0, fun _ => []⟩) := by
    simp [processDecl, ht]
  have hB : processDecl jobs jparse
      (pre.foldl (processDecl jobs jparse) ⟨[], [], fun _ => 0, fun _ => []⟩)
      (k, l1 ++ l2) =
      (l1 ++ l2).foldl (processDep jobs jparse (targetIdsOf jobs jparse k))
        (pre.foldl (processDecl jobs jparse) ⟨[], [], fun _ => 0, fun _ => []⟩) := by
    simp [processDecl, ht]
  have hAeq : processDecl jobs jparse (pre.foldl (processDecl jobs jparse) ⟨[], [], fun _ => 0, fun _ => []⟩) (k, l1 ++ d :: l2) =
      ⟨(processDecl jobs jparse (pre.foldl (processDecl jobs jparse) ⟨[], [], fun _ => 0, fun _ => []⟩) (k, l1 ++ d :: l2)).missing_targets,
       (processDecl jobs jparse (pre.foldl (processDecl jobs jparse) ⟨[], [], fun _ => 0, fun _ => []⟩) (k, l1 ++ l2)).missing_deps,
       (processDecl jobs jparse (pre.foldl (processDecl jobs jparse) ⟨[], [], fun _ => 0, fun _ => []⟩) (k, l1 ++ l2)).in_degree,
       (processDecl jobs jparse (pre.foldl (processDecl jobs jparse) ⟨[], [], fun _ => 0, fun _ => []⟩) (k, l1 ++ l2)).edges⟩ := by
    apply GraphParts.ext4
    · rfl
    · rw [hA, hB]
      exact hABcore.1
    · rw [hA, hB]
      exact hABcore.2.1
    · rw [hA, hB]
      exact hABcore.2.2.1
  have hfree := foldProcessDecl_free jobs jparse post
    (processDecl jobs jparse (pre.foldl (processDecl jobs jparse) ⟨[], [], fun _ => 0, fun _ => []⟩) (k, l1 ++ l2))
    ((processDecl jobs jparse (pre.foldl (processDecl jobs jparse) ⟨[], [], fun _ => 0, fun _ => []⟩) (k, l1 ++ d :: l2)).missing_targets)
    ((processDecl jobs jparse (pre.foldl (processDecl jobs jparse) ⟨[], [], fun _ => 0, fun _ => []⟩) (k, l1 ++ l2)).missing_deps)
  have hmdeq : (buildParts jobs jparse (pre ++ (k, l1 ++ d :: l2) :: post)).missing_deps =
      (buildParts jobs jparse (pre ++ (k, l1 ++ l2) :: post)).missing_deps := by
    rw [hg1eq (k, l1 ++ d :: l2), hg1eq (k, l1 ++ l2), hAeq]
    have h1 := congrArg GraphParts.missing_deps hfree
    simp only [] at h1
    have h2 := (foldProcessDecl_missing jobs jparse post
      (processDecl jobs jparse (pre.foldl (processDecl jobs jparse) ⟨[], [], fun _ => 0, fun _ => []⟩) (k, l1 ++ l2))).2
    exact h1.trans h2.symm
  have hdegeq : (buildParts jobs jparse (pre ++ (k, l1 ++ d :: l2) :: post)).in_degree =
      (buildParts jobs jparse (pre ++ (k, l1 ++ l2) :: post)).in_degree := by
    rw [hg1eq (k, l1 ++ d :: l2), hg1eq (k, l1 ++ l2), hAeq]
    have h1 := congrArg GraphParts.in_degree hfree
    simpa using h1
  have hedgeq : (buildParts jobs jparse (pre ++ (k, l1 ++ d :: l2) :: post)).edges =
      (buildParts jobs jparse (pre ++ (k, l1 ++ l2) :: post)).edges := by
    rw [hg1eq (k, l1 ++ d :: l2), hg1eq (k, l1 ++ l2), hAeq]
    have h1 := congrArg GraphParts.edges hfree
    simpa using h1
  have hdecl1mt : mtDeltaDecl jobs jparse (k, l1 ++ d :: l2) =
      mtDeltaDeps jobs jparse l1 ++ d :: mtDeltaDeps jobs jparse l2 := by
    simp only [mtDeltaDecl, ht, if_false]
    rw [mtDeltaDeps_append]
    simp [mtDeltaDeps, mtDeltaDep, hwa]
  have hdecl2mt : mtDeltaDecl jobs jparse (k, l1 ++ l2) =
      mtDeltaDeps jobs jparse l1 ++ mtDeltaDeps jobs jparse l2 := by
    simp only [mtDeltaDecl, ht, if_false]
    rw [mtDeltaDeps_append]
  have hmt1 : (buildParts jobs jparse (pre ++ (k, l1 ++ d :: l2) :: post)).missing_targets =
      (mtDeltaAll jobs jparse pre ++ mtDeltaDeps jobs jparse l1) ++ d ::
        (mtDeltaDeps jobs jparse l2 ++ mtDeltaAll jobs jparse post) := by
    rw [(buildParts_missing jobs jparse _).1, mtDeltaAll_append]
    simp only [mtDeltaAll]
    rw [hdecl1mt]
    simp
  have hmt2 : (buildParts jobs jparse (pre ++ (k, l1 ++ l2) :: post)).missing_targets =
      (mtDeltaAll jobs jparse pre ++ mtDeltaDeps jobs jparse l1) ++
        (mtDeltaDeps jobs jparse l2 ++ mtDeltaAll jobs jparse post) := by
    rw [(buildParts_missing jobs jparse _).1, mtDeltaAll_append]
    simp only [mtDeltaAll]
    rw [hdecl2mt]
    simp
  refine ⟨?_, ?_, hmdeq, hdegeq, hedgeq, ?_⟩
  · rw [hmt1]
    simp
  · exact ⟨mtDeltaAll jobs jparse pre ++ mtDeltaDeps jobs jparse l1,
      mtDeltaDeps jobs jparse l2 ++ mtDeltaAll jobs jparse post, hmt1, hmt2⟩
  · intro mp outcome picks
    rw [run_parallel, run_parallel]
    simp only [hmdeq, hdegeq, hedgeq]

/-- C6 (witness): Scenario C — `role2` depends on `role1@mac2`; role1
exists only at mac1, so the pattern is a warning, both jobs still run and
the run exits 0. -/
theorem c6_witness :
    "role1@mac2" ∈ (buildParts exJobs2 noParse [("role2", ["role1@mac2"])]).missing_targets ∧
    (run_parallel exJobs2 noParse [("role2", ["role1@mac2"])] 5 allOk [0, 0, 0]).exitCode = 0 := by
  have h := c6_warn_only_skip exJobs2 noParse [] [] "role2" [] [] "role1@mac2"
    (by decide) (by decide)
  exact ⟨h.1, by decide⟩

/-! ### C7: no starting node aborts without launching -/

/-- C7: for a non-empty job set whose successfully built dependency graph
leaves no job with in-degree 0, the run reports the cycle/no-starting-node
error and returns exit code 1 without launching any job. -/
theorem c7_no_start_aborts (jobs : List Job) (jparse : String → Option JVal)
    (deps : List (String × List String)) (mp : Nat) (outcome : Nat → Option Nat)
    (picks : List Nat) (deg : Nat → Int) (edges : Nat → List Nat)
    (hjobs : jobs ≠ [])
    (hb : build_dependency_graph jobs jparse deps = some (deg, edges))
    (hdeg : ∀ i, i < jobs.length → deg i ≠ 0) :
    run_parallel jobs jparse deps mp outcome picks = RunResult.noStart ∧
    (run_parallel jobs jparse deps mp outcome picks).exitCode = 1 ∧
    (run_parallel jobs jparse deps mp outcome picks).launched = [] := by
  rw [build_dependency_graph] at hb
  split at hb
  · rename_i hmd
    rw [Option.some.injEq, Prod.mk.injEq] at hb
    obtain ⟨hdegeq, _⟩ := hb
    have hready : (initState jobs.length (buildParts jobs jparse deps).in_degree).ready = [] := by
      rw [initState]
      simp only []
      rw [List.filter_eq_nil_iff]
      intro a ha
      rw [List.mem_range] at ha
      have := hdeg a ha
      rw [← hdegeq] at this
      simp [this]
    have hrun : run_parallel jobs jparse deps mp outcome picks = RunResult.noStart := by
      rw [run_parallel]
      simp only [hmd, ne_eq, not_true_eq_false, if_false, ite_not]
      rw [if_pos hready]
    exact ⟨hrun, by rw [hrun]; rfl, by rw [hrun]; rfl⟩
  · exact absurd hb (by simp)

/-- C7 (witness): a two-job cycle (`a` needs `b`, `b` needs `a`) aborts
with exit 1 and launches nothing. -/
theorem c7_witness :
    run_parallel [⟨"a", "h", []⟩, ⟨"b", "h", []⟩] noParse [("a", ["b"]), ("b", ["a"])]
        5 allOk [0, 0] = RunResult.noStart ∧
    (run_parallel [⟨"a", "h", []⟩, ⟨"b", "h", []⟩] noParse [("a", ["b"]), ("b", ["a"])]
        5 allOk [0, 0]).exitCode = 1 ∧
    (run_parallel [⟨"a", "h", []⟩, ⟨"b", "h", []⟩] noParse [("a", ["b"]), ("b", ["a"])]
        5 allOk [0, 0]).launched = [] := by
  refine c7_no_start_aborts [⟨"a", "h", []⟩, ⟨"b", "h", []⟩] noParse
    [("a", ["b"]), ("b", ["a"])] 5 allOk [0, 0]
    (buildParts [⟨"a", "h", []⟩, ⟨"b", "h", []⟩] noParse [("a", ["b"]), ("b", ["a"])]).in_degree
    (buildParts [⟨"a", "h", []⟩, ⟨"b", "h", []⟩] noParse [("a", ["b"]), ("b", ["a"])]).edges
    (by decide) (by rfl) ?_
  decide

/-! ### Scheduler lemmas -/

theorem schedRun_cons (wc : Nat) (edges : Nat → List Nat) (outcome : Nat → Option Nat)
    (pick : Nat) (picks : List Nat) (st : SchedState) :
    schedRun wc edges outcome (pick :: picks) st =
      if st.ready = [] ∧ st.inFlight = [] then st
      else
        if (fillLoop wc st).inFlight = [] then fillLoop wc st
        else schedRun wc edges outcome picks (doComplete edges outcome (fillLoop wc st) pick) := rfl

theorem fillGo_stop (wc : Nat) :
    ∀ (ready fl launched : List Nat), fillGo wc ready fl launched true = (ready, fl, launched) := by
  intro ready fl launched
  cases ready with
  | nil => rfl
  | cons idx rest =>
    rw [fillGo, if_neg]
    simp

theorem fillLoop_stop (wc : Nat) (st : SchedState) (hstop : st.stop = true) :
    fillLoop wc st = st := by
  cases st with
  | mk r f l res stp deg =>
    simp only at hstop
    subst hstop
    rw [fillLoop, fillGo_stop]

theorem fillLoop_stop_fixed (wc : Nat) (st : SchedState) :
    (fillLoop wc st).stop = st.stop ∧ (fillLoop wc st).results = st.results ∧
    (fillLoop wc st).in_degree = st.in_degree := ⟨rfl, rfl, rfl⟩

theorem doComplete_stop_mono (edges : Nat → List Nat) (outcome : Nat → Option Nat)
    (st : SchedState) (pick : Nat) (hstop : st.stop = true) :
    (doComplete edges outcome st pick).stop = true := by
  rw [doComplete]
  cases st.inFlight with
  | nil => exact hstop
  | cons a l => simp [hstop]

theorem doComplete_launched (edges : Nat → List Nat) (outcome : Nat → Option Nat)
    (st : SchedState) (pick : Nat) :
    (doComplete edges outcome st pick).launched = st.launched := by
  rw [doComplete]
  cases st.inFlight with
  | nil => rfl
  | cons a l => rfl

theorem schedRun_stop_mono (wc : Nat) (edges : Nat → List Nat) (outcome : Nat → Option Nat) :
    ∀ (picks : List Nat) (st : SchedState), st.stop = true →
      (schedRun wc edges outcome picks st).stop = true := by
  intro picks
  induction picks with
  | nil => intro st h; exact h
  | cons pick picks ih =>
    intro st h
    rw [schedRun_cons]
    by_cases he : st.ready = [] ∧ st.inFlight = []
    · rw [if_pos he]; exact h
    · rw [if_neg he, fillLoop_stop wc st h]
      by_cases hf : st.inFlight = []
      · rw [if_pos hf]; exact h
      · rw [if_neg hf]
        exact ih _ (doComplete_stop_mono edges outcome st pick h)

theorem schedRun_launched_stop (wc : Nat) (edges : Nat → List Nat) (outcome : Nat → Option Nat) :
    ∀ (picks : List Nat) (st : SchedState), st.stop = true →
      (schedRun wc edges outcome picks st).launched = st.launched := by
  intro picks
  induction picks with
  | nil => intro st _; rfl
  | cons pick picks ih =>
    intro st h
    rw [schedRun_cons]
    by_cases he : st.ready = [] ∧ st.inFlight = []
    · rw [if_pos he]
    · rw [if_neg he, fillLoop_stop wc st h]
      by_cases hf : st.inFlight = []
      · rw [if_pos hf]
      · rw [if_neg hf]
        rw [ih _ (doComplete_stop_mono edges outcome st pick h)]
        exact doComplete_launched edges outcome st pick

theorem schedRun_results_mono (wc : Nat) (edges : Nat → List Nat) (outcome : Nat → Option Nat) :
    ∀ (picks : List Nat) (st : SchedState) (r : Nat × Nat), r ∈ st.results →
      r ∈ (schedRun wc edges outcome picks st).results := by
  intro picks
  induction picks with
  | nil => intro st r h; exact h
  | cons pick picks ih =>
    intro st r h
    rw [schedRun_cons]
    by_cases he : st.ready = [] ∧ st.inFlight = []
    · rw [if_pos he]; exact h
    · rw [if_neg he]
      by_cases hf : (fillLoop wc st).inFlight = []
      · rw [if_pos hf]; exact h
      · rw [if_neg hf]
        apply ih
        rw [doComplete]
        cases hinf : (fillLoop wc st).inFlight with
        | nil => exact h
        | cons a l =>
          simp only []
          rw [List.mem_append]
          left
          exact h

theorem mem_getD_or_eraseIdx (l : List Nat) (j k : Nat) (hk : k < l.length) (hj : j ∈ l) :
    j = l.getD k 0 ∨ j ∈ l.eraseIdx k := by
  have hdecomp : l = l.take k ++ l[k] :: l.drop (k + 1) := by
    rw [← List.drop_eq_getElem_cons hk, List.take_append_drop]
  have herase : l.eraseIdx k = l.take k ++ l.drop (k + 1) := List.eraseIdx_eq_take_drop_succ l k
  have hget : l.getD k 0 = l[k] := List.getD_eq_getElem l 0 hk
  rw [hdecomp] at hj
  rcases List.mem_append.mp hj with h | h
  · right
    rw [herase, List.mem_append]
    left
    exact h
  · rcases List.mem_cons.mp h with h | h
    · left
      rw [hget]
      exact h
    · right
      rw [herase, List.mem_append]
      right
      exact h

theorem schedRun_drain (wc : Nat) (edges : Nat → List Nat) (outcome : Nat → Option Nat) :
    ∀ (picks : List Nat) (st : SchedState), st.stop = true →
      Done wc (schedRun wc edges outcome picks st) →
      ∀ j ∈ st.inFlight, ∃ rc, (j, rc) ∈ (schedRun wc edges outcome picks st).results := by
  intro picks
  induction picks with
  | nil =>
    intro st hstop hdone j hj
    rw [schedRun] at hdone ⊢
    rw [Done, fillLoop_stop wc st hstop] at hdone
    rw [hdone] at hj
    simp at hj
  | cons pick picks ih =>
    intro st hstop hdone j hj
    rw [schedRun_cons] at hdone ⊢
    by_cases he : st.ready = [] ∧ st.inFlight = []
    · rw [he.2] at hj
      simp at hj
    · rw [if_neg he, fillLoop_stop wc st hstop] at hdone ⊢
      by_cases hf : st.inFlight = []
      · rw [hf] at hj
        simp at hj
      · rw [if_neg hf] at hdone ⊢
        have hlen : 0 < st.inFlight.length := List.length_pos.mpr hf
        have hk : pick % st.inFlight.length < st.inFlight.length := Nat.mod_lt pick hlen
        rcases mem_getD_or_eraseIdx st.inFlight j (pick % st.inFlight.length) hk hj with hcase | hcase
        · refine ⟨recordedRc (outcome j), ?_⟩
          apply schedRun_results_mono
          rw [doComplete]
          cases hinf : st.inFlight with
          | nil => exact absurd hinf hf
          | cons a l =>
            simp only []
            rw [List.mem_append]
            right
            rw [← hinf, ← hcase]
            simp
        · have hstop2 : (doComplete edges outcome st pick).stop = true :=
            doComplete_stop_mono edges outcome st pick hstop
          have hj2 : j ∈ (doComplete edges outcome st pick).inFlight := by
            rw [doComplete]
            cases hinf : st.inFlight with
            | nil => exact absurd hinf hf
            | cons a l =>
              simp only []
              rw [← hinf]
              exact hcase
          exact ih _ hstop2 hdone j hj2

theorem processed_not_notRun (jobs : List Job) (st : SchedState) (j : Nat)
    (hj : j ∈ processedOf st) : j ∉ notRunIdxs jobs st := by
  rw [notRunIdxs]
  split
  · intro hmem
    rw [List.mem_filter] at hmem
    have hpred := hmem.2
    rw [Bool.not_eq_eq_eq_not, Bool.not_true] at hpred
    rw [processedOf] at hj
    rcases List.mem_map.mp hj with ⟨r, hr, hrj⟩
    have : dLabel jobs j ∈ st.results.map (fun r => dLabel jobs r.1) := by
      rw [List.mem_map]
      exact ⟨r, hr, by rw [hrj]⟩
    have hcontains : (st.results.map (fun r => dLabel jobs r.1)).contains (dLabel jobs j) = true :=
      List.elem_eq_true_of_mem this
    rw [hcontains] at hpred
    simp at hpred
  · simp

/-- C3: once the control loop observes a completed job as failed (non-zero
status or raised fault) the stop flag is set; from any stopped state no
further job is ever submitted (dependent of the failed job or not), every
job in flight at that moment still reaches a terminal state recorded in
the results, and a job with a recorded result is never reported as
not-run. -/
theorem c3_global_stop_and_drain (wc : Nat) (edges : Nat → List Nat)
    (outcome : Nat → Option Nat) (picks : List Nat) (st : SchedState)
    (hstop : st.stop = true) :
    (schedRun wc edges outcome picks st).launched = st.launched ∧
    (schedRun wc edges outcome picks st).stop = true ∧
    (Done wc (schedRun wc edges outcome picks st) →
      ∀ j ∈ st.inFlight, ∃ rc, (j, rc) ∈ (schedRun wc edges outcome picks st).results) ∧
    (∀ (jobs : List Job) (stAny : SchedState) (j : Nat),
      j ∈ processedOf stAny → j ∉ notRunIdxs jobs stAny) ∧
    (∀ (stAny : SchedState) (pick : Nat), stAny.inFlight ≠ [] →
      failObserved (outcome (stAny.inFlight.getD (pick % stAny.inFlight.length) 0)) = true →
      (doComplete edges outcome stAny pick).stop = true) := by
  refine ⟨schedRun_launched_stop wc edges outcome picks st hstop,
    schedRun_stop_mono wc edges outcome picks st hstop,
    schedRun_drain wc edges outcome picks st hstop,
    processed_not_notRun, ?_⟩
  intro stAny pick hne hfail
  rw [doComplete]
  cases hinf : stAny.inFlight with
  | nil => exact absurd hinf hne
  | cons a l =>
    simp only []
    rw [← hinf, hfail]
    simp

/-- C3 (witness): a stopped state with job 1 still in flight: job 1 drains
to a recorded result, nothing new is launched, and completing a failing
job sets the stop flag. -/
theorem c3_witness :
    (schedRun 2 (fun _ => []) allOk [0]
        ⟨[], [1], [0, 1], [(0, 2)], true, fun _ => 0⟩).launched = [0, 1] ∧
    (∃ rc, (1, rc) ∈ (schedRun 2 (fun _ => []) allOk [0]
        ⟨[], [1], [0, 1], [(0, 2)], true, fun _ => 0⟩).results) := by
  have h := c3_global_stop_and_drain 2 (fun _ => []) allOk [0]
    ⟨[], [1], [0, 1], [(0, 2)], true, fun _ => 0⟩ rfl
  exact ⟨h.1, h.2.2.1 (by rfl) 1 (by decide)⟩

/-! ### C1: finalization and exit code -/

theorem run_parallel_finished (jobs : List Job) (jparse : String → Option JVal)
    (deps : List (String × List String)) (mp : Nat) (outcome : Nat → Option Nat)
    (picks : List Nat) (code : Nat) (recs : List (String × Nat)) (fin : SchedState)
    (h : run_parallel jobs jparse deps mp outcome picks = RunResult.finished code recs fin) :
    fin = schedRun (workerCount mp jobs.length) (buildParts jobs jparse deps).edges outcome
        picks (initState jobs.length (buildParts jobs jparse deps).in_degree) ∧
    recs = finalRecords jobs fin ∧
    code = (if recs.any (fun r => r.2 != 0) then 1 else 0) := by
  simp only [run_parallel] at h
  split at h
  · exact absurd h (by simp)
  · split at h
    · exact absurd h (by simp)
    · rw [RunResult.finished.injEq] at h
      obtain ⟨hcode, hrecs, hfin⟩ := h
      refine ⟨hfin.symm, ?_, ?_⟩
      · rw [← hrecs, hfin]
      · rw [← hcode, hrecs]

/-- C1 (counterexample): with jobs r0, r1, r2 where r1 and r2 form a
dependency cycle and r0 is independent, the graph builds successfully
(r0 starts), every completed job succeeds, yet jobs r1 and r2 never run,
no not-run record is produced for them, and the exit code is 0 — refuting
both "every job that never reached running is recorded as not-run" and
"exit code 0 iff every job ran and returned status 0". -/
theorem c1_counterexample :
    (run_parallel [⟨"r0", "h", []⟩, ⟨"r1", "h", []⟩, ⟨"r2", "h", []⟩] noParse
        [("r1", ["r2"]), ("r2", ["r1"])] 2 allOk [0, 0]).exitCode = 0 ∧
    (run_parallel [⟨"r0", "h", []⟩, ⟨"r1", "h", []⟩, ⟨"r2", "h", []⟩] noParse
        [("r1", ["r2"]), ("r2", ["r1"])] 2 allOk [0, 0]).records = [("r0@h", 0)] ∧
    (run_parallel [⟨"r0", "h", []⟩, ⟨"r1", "h", []⟩, ⟨"r2", "h", []⟩] noParse
        [("r1", ["r2"]), ("r2", ["r1"])] 2 allOk [0, 0]).launched = [0] ∧
    ("r1@h (not run)", 1) ∉ (run_parallel [⟨"r0", "h", []⟩, ⟨"r1", "h", []⟩, ⟨"r2", "h", []⟩]
        noParse [("r1", ["r2"]), ("r2", ["r1"])] 2 allOk [0, 0]).records := by
  refine ⟨?_, ?_, ?_, ?_⟩ <;> decide

/-- C1 (amended): at the end of every terminated parallel run, the exit
code is 0 if and only if every reported record (ran or not-run) has
status 0; and when some job failed (the stop flag is set) and fewer
results than jobs were recorded, every job whose display label differs
from all completed jobs' labels is reported as not-run with failure
status 1, distinguishable by the " (not run)" suffix. Jobs left pending
without any failure (a dependency cycle behind a valid starting node) are
not reported, and label collisions can likewise suppress a not-run
record. -/
theorem c1_finalization_amended (jobs : List Job) (jparse : String → Option JVal)
    (deps : List (String × List String)) (mp : Nat) (outcome : Nat → Option Nat)
    (picks : List Nat) (code : Nat) (recs : List (String × Nat)) (fin : SchedState)
    (h : run_parallel jobs jparse deps mp outcome picks = RunResult.finished code recs fin)
    (hdone : Done (workerCount mp jobs.length) fin) :
    (code = 0 ↔ ∀ r ∈ recs, r.2 = 0) ∧
    (∀ i ∈ notRunIdxs jobs fin, (dLabel jobs i ++ " (not run)", 1) ∈ recs) ∧
    (fin.stop = true → fin.results.length < jobs.length →
      ∀ i, i < jobs.length →
        (∀ r ∈ fin.results, dLabel jobs r.1 ≠ dLabel jobs i) →
        (dLabel jobs i ++ " (not run)", 1) ∈ recs) := by
  obtain ⟨hfin, hrecs, hcode⟩ := run_parallel_finished jobs jparse deps mp outcome picks
    code recs fin h
  have hnotrun : ∀ i ∈ notRunIdxs jobs fin, (dLabel jobs i ++ " (not run)", 1) ∈ recs := by
    intro i hi
    rw [hrecs, finalRecords, List.mem_append]
    right
    rw [List.mem_map]
    exact ⟨i, hi, rfl⟩
  refine ⟨?_, hnotrun, ?_⟩
  · rw [hcode]
    by_cases hany : recs.any (fun r => r.2 != 0) = true
    · rw [if_pos hany]
      simp only [List.any_eq_true] at hany
      obtain ⟨r, hr, hrne⟩ := hany
      constructor
      · intro hc; exact absurd hc (by simp)
      · intro hall
        exfalso
        have := hall r hr
        simp [this] at hrne
    · rw [if_neg hany]
      constructor
      · intro _
        intro r hr
        by_contra hne
        exact hany (List.any_eq_true.mpr ⟨r, hr, by simpa using hne⟩)
      · intro _; rfl
  · intro hstop hlen i hi hlab
    apply hnotrun
    rw [notRunIdxs, if_pos ⟨hstop, hlen⟩, List.mem_filter]
    refine ⟨List.mem_range.mpr hi, ?_⟩
    rw [Bool.not_eq_eq_eq_not, Bool.not_true]
    by_contra hc
    have hc2 : (fin.results.map (fun r => dLabel jobs r.1)).contains (dLabel jobs i) = true := by
      cases hcc : (fin.results.map (fun r => dLabel jobs r.1)).contains (dLabel jobs i) with
      | true => rfl
      | false => exact absurd hcc hc
    have := List.mem_of_elem_eq_true hc2
    rcases List.mem_map.mp this with ⟨r, hr, hrl⟩
    exact hlab r hr hrl

/-- C1 (witness): a concrete failing run — job a fails with status 2, its
dependent b is reported not-run, and the exit code is 1 iff some record is
non-zero. -/
theorem c1_witness :
    (("b@h (not run)", 1) ∈ (run_parallel [⟨"a", "h", []⟩, ⟨"b", "h", []⟩] noParse
      [("b", ["a"])] 5 (fun i => if i = 0 then some 2 else some 0) [0, 0]).records) ∧
    (run_parallel [⟨"a", "h", []⟩, ⟨"b", "h", []⟩] noParse
      [("b", ["a"])] 5 (fun i => if i = 0 then some 2 else some 0) [0, 0]).exitCode = 1 := by
  have h := c1_finalization_amended [⟨"a", "h", []⟩, ⟨"b", "h", []⟩] noParse [("b", ["a"])] 5
    (fun i => if i = 0 then some 2 else some 0) [0, 0] 1 _ _ rfl (by rfl)
  refine ⟨?_, by decide⟩
  have hb := h.2.1 1 (by decide)
  exact hb

/-! ### C4: readiness only after all prerequisites are processed -/

theorem processEdges_deg : ∀ (l : List Nat) (deg : Nat → Int) (rdy : List Nat) (B : Nat),
    (processEdges l deg rdy).1 B = deg B - (l.count B : Int) := by
  intro l
  induction l with
  | nil => intro deg rdy B; simp [processEdges]
  | cons d ds ih =>
    intro deg rdy B
    rw [processEdges, ih]
    by_cases hB : B = d
    · subst hB
      rw [List.count_cons_self, if_pos rfl]
      push_cast
      omega
    · rw [List.count_cons_of_ne hB, if_neg hB]

theorem processEdges_ready : ∀ (l : List Nat) (deg : Nat → Int) (rdy : List Nat),
    (∀ C, ((l.count C : Int)) ≤ deg C) → (∀ C ∈ rdy, deg C = 0) →
    ∃ new, (processEdges l deg rdy).2 = rdy ++ new ∧ new.Nodup ∧
      (∀ B, B ∈ new ↔ 0 < deg B ∧ deg B = (l.count B : Int)) := by
  intro l
  induction l with
  | nil =>
    intro deg rdy _ _
    refine ⟨[], by simp [processEdges], List.nodup_nil, ?_⟩
    intro B
    simp only [List.count_nil, Nat.cast_zero, List.not_mem_nil, false_iff]
    intro ⟨h1, h2⟩
    omega
  | cons d ds ih =>
    intro deg rdy Hle H0
    rw [processEdges]
    have hd1 : (1 : Int) ≤ deg d := by
      have := Hle d
      rw [List.count_cons_self] at this
      push_cast at this
      omega
    by_cases hv : deg d - 1 = 0
    · have hdeq : deg d = 1 := by omega
      have hcnt : ((ds.count d : Nat) : Int) = 0 := by
        have := Hle d
        rw [List.count_cons_self] at this
        push_cast at this
        omega
      rw [if_pos hv]
      have hle : ∀ C, ((ds.count C : Nat) : Int) ≤ (if C = d then deg d - 1 else deg C) := by
        intro C
        by_cases hC : C = d
        · subst hC
          rw [if_pos rfl]
          omega
        · rw [if_neg hC]
          have := Hle C
          rw [List.count_cons_of_ne hC] at this
          exact this
      have h0 : ∀ C ∈ rdy ++ [d], (if C = d then deg d - 1 else deg C) = 0 := by
        intro C hC
        rcases List.mem_append.mp hC with hC | hC
        · have hC0 := H0 C hC
          have hCd : ¬ C = d := by
            intro hc
            rw [hc] at hC0
            omega
          rw [if_neg hCd]
          exact hC0
        · simp at hC
          subst hC
          rw [if_pos rfl]
          omega
      obtain ⟨new1, hsplit, hnodup, hiff⟩ := ih
        (fun j => if j = d then deg d - 1 else deg j) (rdy ++ [d]) hle h0
      refine ⟨d :: new1, ?_, ?_, ?_⟩
      · rw [hsplit]
        simp
      · refine List.Nodup.cons ?_ hnodup
        intro hd
        have := (hiff d).mp hd
        rw [if_pos rfl] at this
        omega
      · intro B
        by_cases hB : B = d
        · subst hB
          simp only [List.mem_cons, true_or, true_iff]
          rw [List.count_cons_self]
          push_cast
          omega
        · have := hiff B
          rw [if_neg hB] at this
          rw [List.count_cons_of_ne hB]
          simp only [List.mem_cons]
          constructor
          · intro hc
            rcases hc with hc | hc
            · exact absurd hc hB
            · exact this.mp hc
          · intro hc
            exact Or.inr (this.mpr hc)
    · rw [if_neg hv]
      have hle : ∀ C, ((ds.count C : Nat) : Int) ≤ (if C = d then deg d - 1 else deg C) := by
        intro C
        by_cases hC : C = d
        · subst hC
          rw [if_pos rfl]
          have := Hle C
          rw [List.count_cons_self] at this
          push_cast at this
          omega
        · rw [if_neg hC]
          have := Hle C
          rw [List.count_cons_of_ne hC] at this
          exact this
      have h0 : ∀ C ∈ rdy, (if C = d then deg d - 1 else deg C) = 0 := by
        intro C hC
        have hC0 := H0 C hC
        have hCd : ¬ C = d := by
          intro hc
          rw [hc] at hC0
          omega
        rw [if_neg hCd]
        exact hC0
      obtain ⟨new1, hsplit, hnodup, hiff⟩ := ih
        (fun j => if j = d then deg d - 1 else deg j) rdy hle h0
      refine ⟨new1, hsplit, hnodup, ?_⟩
      intro B
      by_cases hB : B = d
      · subst hB
        have := hiff B
        rw [if_pos rfl] at this
        rw [this, List.count_cons_self]
        push_cast
        omega
      · have := hiff B
        rw [if_neg hB] at this
        rw [this, List.count_cons_of_ne hB]

theorem eraseIdx_decomp (l : List Nat) (k : Nat) (hk : k < l.length) :
    l = l.take k ++ l[k] :: l.drop (k + 1) ∧
    l.eraseIdx k = l.take k ++ l.drop (k + 1) := by
  constructor
  · rw [← List.drop_eq_getElem_cons hk, List.take_append_drop]
  · exact List.eraseIdx_eq_take_drop_succ l k

theorem nodup_getD_not_mem_eraseIdx (l : List Nat) (k : Nat) (hk : k < l.length)
    (h : l.Nodup) : l.getD k 0 ∉ l.eraseIdx k := by
  obtain ⟨hdec, herase⟩ := eraseIdx_decomp l k hk
  rw [List.getD_eq_getElem l 0 hk, herase]
  rw [hdec] at h
  rw [List.nodup_append] at h
  obtain ⟨_, hcons, hdisj⟩ := h
  intro hmem
  rcases List.mem_append.mp hmem with hmem | hmem
  · exact hdisj hmem (List.mem_cons_self _ _)
  · exact (List.nodup_cons.mp hcons).1 hmem

theorem mem_eraseIdx_of_ne (l : List Nat) (k : Nat) (hk : k < l.length)
    (j : Nat) (hj : j ∈ l) (hne : j ≠ l.getD k 0) : j ∈ l.eraseIdx k := by
  obtain ⟨hdec, herase⟩ := eraseIdx_decomp l k hk
  rw [List.getD_eq_getElem l 0 hk] at hne
  rw [hdec] at hj
  rw [herase, List.mem_append]
  rcases List.mem_append.mp hj with h | h
  · exact Or.inl h
  · rcases List.mem_cons.mp h with h | h
    · exact absurd h hne
    · exact Or.inr h

theorem getD_mem_of_lt (l : List Nat) (k : Nat) (hk : k < l.length) : l.getD k 0 ∈ l := by
  rw [List.getD_eq_getElem l 0 hk]
  exact List.getElem_mem hk

/-- Unprocessed jobs: candidates whose completion the loop has not yet
handled. -/
def remainingOf (n : Nat) (st : SchedState) : Finset Nat :=
  (Finset.range n).filter (fun A => A ∉ processedOf st)

/-- The scheduler invariant tying in-degrees to unprocessed incoming
edges. -/
structure Good (n : Nat) (edges : Nat → List Nat) (st : SchedState) : Prop where
  deg_eq : ∀ B, st.in_degree B = ∑ A ∈ remainingOf n st, ((edges A).count B : Int)
  deg_zero : ∀ B, B ∈ st.ready ∨ B ∈ st.launched → st.in_degree B = 0
  ready_nodup : st.ready.Nodup
  inflight_nodup : st.inFlight.Nodup
  processed_nodup : (processedOf st).Nodup
  ready_fresh : ∀ j ∈ st.ready, j ∉ st.inFlight ∧ j ∉ processedOf st
  inflight_fresh : ∀ j ∈ st.inFlight, j ∉ processedOf st
  launched_iff : ∀ j, j ∈ st.launched ↔ j ∈ st.inFlight ∨ j ∈ processedOf st
  ready_lt : ∀ j ∈ st.ready, j < n
  inflight_lt : ∀ j ∈ st.inFlight, j < n

theorem fillGo_good (n : Nat) (edges : Nat → List Nat) (stop : Bool)
    (results : List (Nat × Nat)) (deg : Nat → Int) (wc : Nat) :
    ∀ (ready fl launched : List Nat),
      Good n edges ⟨ready, fl, launched, results, stop, deg⟩ →
      Good n edges ⟨(fillGo wc ready fl launched stop).1,
        (fillGo wc ready fl launched stop).2.1,
        (fillGo wc ready fl launched stop).2.2, results, stop, deg⟩ := by
  intro ready
  induction ready with
  | nil => intro fl launched h; exact h
  | cons idx rest ih =>
    intro fl launched h
    rw [fillGo]
    by_cases hc : fl.length < wc ∧ stop = false
    · rw [if_pos hc]
      apply ih (fl ++ [idx]) (launched ++ [idx])
      have hidxr : idx ∈ (⟨idx :: rest, fl, launched, results, stop, deg⟩ : SchedState).ready := by
        simp
      have hidxfresh := h.ready_fresh idx hidxr
      have hnodup := h.ready_nodup
      have hidxrest : idx ∉ rest := (List.nodup_cons.mp hnodup).1
      refine ⟨?_, ?_, ?_, ?_, ?_, ?_, ?_, ?_, ?_, ?_⟩
      · exact h.deg_eq
      · intro B hB
        apply h.deg_zero
        rcases hB with hB | hB
        · exact Or.inl (by simp [hB])
        · rcases List.mem_append.mp hB with hB | hB
          · exact Or.inr hB
          · simp at hB
            exact Or.inl (by simp [hB])
      · exact (List.nodup_cons.mp hnodup).2
      · rw [List.nodup_append]
        refine ⟨h.inflight_nodup, List.nodup_singleton idx, ?_⟩
        intro a ha hmem
        simp at hmem
        rw [hmem] at ha
        exact hidxfresh.1 ha
      · exact h.processed_nodup
      · intro j hj
        have hjr : j ∈ (⟨idx :: rest, fl, launched, results, stop, deg⟩ : SchedState).ready := by
          simp [hj]
        have hf := h.ready_fresh j hjr
        refine ⟨?_, hf.2⟩
        rw [List.mem_append]
        intro hmem
        rcases hmem with hmem | hmem
        · exact hf.1 hmem
        · simp at hmem
          rw [hmem] at hj
          exact hidxrest hj
      · intro j hj
        rcases List.mem_append.mp hj with hj | hj
        · exact h.inflight_fresh j hj
        · simp at hj
          rw [hj]
          exact hidxfresh.2
      · intro j
        rw [List.mem_append, List.mem_append, h.launched_iff j]
        simp only [List.mem_singleton]
        tauto
      · intro j hj
        exact h.ready_lt j (by simp [hj])
      · intro j hj
        rcases List.mem_append.mp hj with hj | hj
        · exact h.inflight_lt j hj
        · simp at hj
          rw [hj]
          exact h.ready_lt idx (by simp)
    · rw [if_neg hc]
      exact h

theorem fillLoop_good (n : Nat) (edges : Nat → List Nat) (wc : Nat) (st : SchedState)
    (h : Good n edges st) : Good n edges (fillLoop wc st) := by
  cases st with
  | mk ready fl launched results stop deg =>
    exact fillGo_good n edges stop results deg wc ready fl launched h

theorem doComplete_eq (edges : Nat → List Nat) (outcome : Nat → Option Nat)
    (st : SchedState) (pick : Nat) (hne : st.inFlight ≠ []) :
    doComplete edges outcome st pick =
      { ready := (processEdges (edges (st.inFlight.getD (pick % st.inFlight.length) 0))
          st.in_degree st.ready).2,
        inFlight := st.inFlight.eraseIdx (pick % st.inFlight.length),
        launched := st.launched,
        results := st.results ++ [(st.inFlight.getD (pick % st.inFlight.length) 0,
          recordedRc (outcome (st.inFlight.getD (pick % st.inFlight.length) 0)))],
        stop := st.stop ||
          failObserved (outcome (st.inFlight.getD (pick % st.inFlight.length) 0)),
        in_degree := (processEdges (edges (st.inFlight.getD (pick % st.inFlight.length) 0))
          st.in_degree st.ready).1 } := by
  rw [doComplete]
  cases hinf : st.inFlight with
  | nil => exact absurd hinf hne
  | cons a as => rfl

theorem doComplete_good (n : Nat) (edges : Nat → List Nat) (outcome : Nat → Option Nat)
    (st : SchedState) (pick : Nat) (h : Good n edges st)
    (hedglt : ∀ A B, B ∈ edges A → B < n) :
    Good n edges (doComplete edges outcome st pick) := by
  by_cases hne : st.inFlight = []
  · have heq : doComplete edges outcome st pick = st := by
      rw [doComplete, hne]
    rw [heq]
    exact h
  · rw [doComplete_eq edges outcome st pick hne]
    have hlen : 0 < st.inFlight.length := List.length_pos.mpr hne
    have hk : pick % st.inFlight.length < st.inFlight.length := Nat.mod_lt pick hlen
    set k := pick % st.inFlight.length with hkdef
    set idx := st.inFlight.getD k 0 with hidxdef
    have hidxmem : idx ∈ st.inFlight := getD_mem_of_lt st.inFlight k hk
    have hidxlt : idx < n := h.inflight_lt idx hidxmem
    have hidxproc : idx ∉ processedOf st := h.inflight_fresh idx hidxmem
    have hidxrem : idx ∈ remainingOf n st :=
      Finset.mem_filter.mpr ⟨Finset.mem_range.mpr hidxlt, hidxproc⟩
    have hle : ∀ C, (((edges idx).count C : Nat) : Int) ≤ st.in_degree C := by
      intro C
      rw [h.deg_eq C]
      exact Finset.single_le_sum (f := fun A => (((edges A).count C : Nat) : Int))
        (fun i _ => Int.natCast_nonneg _) hidxrem
    have h0 : ∀ C ∈ st.ready, st.in_degree C = 0 := fun C hC => h.deg_zero C (Or.inl hC)
    obtain ⟨new, hsplit, hnodupnew, hiff⟩ :=
      processEdges_ready (edges idx) st.in_degree st.ready hle h0
    have hnewpos : ∀ B ∈ new, 0 < st.in_degree B := fun B hB => ((hiff B).mp hB).1
    have hnewnotlaunched : ∀ B ∈ new, B ∉ st.launched := by
      intro B hB hc
      have h1 := h.deg_zero B (Or.inr hc)
      have h2 := hnewpos B hB
      omega
    have hnewnotready : ∀ B ∈ new, B ∉ st.ready := by
      intro B hB hc
      have h1 := h.deg_zero B (Or.inl hc)
      have h2 := hnewpos B hB
      omega
    have hnewinedges : ∀ B ∈ new, B ∈ edges idx := by
      intro B hB
      obtain ⟨h1, h2⟩ := (hiff B).mp hB
      have hcpos : 0 < (edges idx).count B := by
        by_contra hc
        have hzero : (edges idx).count B = 0 := by omega
        rw [hzero] at h2
        simp at h2
        omega
      exact List.count_pos_iff_mem.mp hcpos
    have hnewne : ∀ B ∈ new, B ≠ idx := by
      intro B hB hc
      have : idx ∈ st.launched := (h.launched_iff idx).mpr (Or.inl hidxmem)
      rw [hc] at hB
      exact hnewnotlaunched idx hB this
    have hidxnoterase : idx ∉ st.inFlight.eraseIdx k :=
      nodup_getD_not_mem_eraseIdx st.inFlight k hk h.inflight_nodup
    have herasesub : ∀ j, j ∈ st.inFlight.eraseIdx k → j ∈ st.inFlight :=
      fun j hj => List.eraseIdx_subset st.inFlight k hj
    have hproc' : ∀ (rc : Nat),
        processedOf ⟨(processEdges (edges idx) st.in_degree st.ready).2,
          st.inFlight.eraseIdx k, st.launched, st.results ++ [(idx, rc)],
          st.stop || failObserved (outcome idx),
          (processEdges (edges idx) st.in_degree st.ready).1⟩ =
        processedOf st ++ [idx] := by
      intro rc
      simp [processedOf]
    have hremain' : remainingOf n ⟨(processEdges (edges idx) st.in_degree st.ready).2,
          st.inFlight.eraseIdx k, st.launched,
          st.results ++ [(idx, recordedRc (outcome idx))],
          st.stop || failObserved (outcome idx),
          (processEdges (edges idx) st.in_degree st.ready).1⟩ =
        (remainingOf n st).erase idx := by
      rw [remainingOf, remainingOf]
      ext A
      rw [Finset.mem_filter, Finset.mem_erase, Finset.mem_filter]
      rw [hproc' (recordedRc (outcome idx))]
      simp only [List.mem_append, List.mem_singleton]
      constructor
      · intro ⟨hA1, hA2⟩
        push_neg at hA2
        exact ⟨hA2.2, hA1, hA2.1⟩
      · intro ⟨hA1, hA2, hA3⟩
        refine ⟨hA2, ?_⟩
        push_neg
        exact ⟨hA3, hA1⟩
    refine ⟨?_, ?_, ?_, ?_, ?_, ?_, ?_, ?_, ?_, ?_⟩
    · intro B
      show (processEdges (edges idx) st.in_degree st.ready).1 B = _
      rw [processEdges_deg, hremain']
      have hsum := Finset.sum_erase_add (remainingOf n st)
        (fun A => (((edges A).count B : Nat) : Int)) hidxrem
      have hdeg := h.deg_eq B
      simp only at hsum
      omega
    · intro B hB
      show (processEdges (edges idx) st.in_degree st.ready).1 B = 0
      rw [processEdges_deg]
      rcases hB with hB | hB
      · rw [hsplit] at hB
        rcases List.mem_append.mp hB with hB | hB
        · have h1 := h0 B hB
          have h2 := hle B
          omega
        · obtain ⟨h1, h2⟩ := (hiff B).mp hB
          omega
      · have h1 := h.deg_zero B (Or.inr hB)
        have h2 := hle B
        omega
    · show ((processEdges (edges idx) st.in_degree st.ready).2).Nodup
      rw [hsplit, List.nodup_append]
      refine ⟨h.ready_nodup, hnodupnew, ?_⟩
      intro a ha hmem
      exact hnewnotready a hmem ha
    · exact List.Nodup.sublist (List.eraseIdx_sublist st.inFlight k) h.inflight_nodup
    · rw [hproc' (recordedRc (outcome idx)), List.nodup_append]
      refine ⟨h.processed_nodup, List.nodup_singleton idx, ?_⟩
      intro a ha hmem
      simp at hmem
      rw [hmem] at ha
      exact hidxproc ha
    · intro j hj
      rw [hproc' (recordedRc (outcome idx))]
      show j ∉ st.inFlight.eraseIdx k ∧ j ∉ processedOf st ++ [idx]
      rw [hsplit] at hj
      rcases List.mem_append.mp hj with hj | hj
      · obtain ⟨hf1, hf2⟩ := h.ready_fresh j hj
        refine ⟨fun hc => hf1 (herasesub j hc), ?_⟩
        rw [List.mem_append, List.mem_singleton]
        intro hc
        rcases hc with hc | hc
        · exact hf2 hc
        · rw [hc] at hj
          exact (h.ready_fresh idx hj).1 hidxmem
      · have hjl := hnewnotlaunched j hj
        have hjinf : j ∉ st.inFlight := fun hc =>
          hjl ((h.launched_iff j).mpr (Or.inl hc))
        have hjproc : j ∉ processedOf st := fun hc =>
          hjl ((h.launched_iff j).mpr (Or.inr hc))
        refine ⟨fun hc => hjinf (herasesub j hc), ?_⟩
        rw [List.mem_append, List.mem_singleton]
        intro hc
        rcases hc with hc | hc
        · exact hjproc hc
        · exact hnewne j hj hc
    · intro j hj
      rw [hproc' (recordedRc (outcome idx))]
      have hjinf : j ∈ st.inFlight := herasesub j hj
      rw [List.mem_append, List.mem_singleton]
      intro hc
      rcases hc with hc | hc
      · exact h.inflight_fresh j hjinf hc
      · rw [hc] at hj
        exact hidxnoterase hj
    · intro j
      rw [hproc' (recordedRc (outcome idx))]
      show j ∈ st.launched ↔ j ∈ st.inFlight.eraseIdx k ∨ j ∈ processedOf st ++ [idx]
      rw [h.launched_iff j, List.mem_append, List.mem_singleton]
      constructor
      · intro hc
        rcases hc with hc | hc
        · by_cases hji : j = idx
          · exact Or.inr (Or.inr hji)
          · exact Or.inl (mem_eraseIdx_of_ne st.inFlight k hk j hc hji)
        · exact Or.inr (Or.inl hc)
      · intro hc
        rcases hc with hc | hc | hc
        · exact Or.inl (herasesub j hc)
        · exact Or.inr hc
        · rw [hc]
          exact Or.inl hidxmem
    · intro j hj
      rw [hsplit] at hj
      rcases List.mem_append.mp hj with hj | hj
      · exact h.ready_lt j hj
      · exact hedglt idx j (hnewinedges j hj)
    · intro j hj
      exact h.inflight_lt j (herasesub j hj)

theorem schedRun_good (n : Nat) (edges : Nat → List Nat) (outcome : Nat → Option Nat)
    (wc : Nat) (hedglt : ∀ A B, B ∈ edges A → B < n) :
    ∀ (picks : List Nat) (st : SchedState), Good n edges st →
      Good n edges (schedRun wc edges outcome picks st) := by
  intro picks
  induction picks with
  | nil => intro st h; exact h
  | cons pick picks ih =>
    intro st h
    simp only [schedRun]
    by_cases hc : st.ready = [] ∧ st.inFlight = []
    · rw [if_pos hc]
      exact h
    · rw [if_neg hc]
      have h1 : Good n edges (fillLoop wc st) := fillLoop_good n edges wc st h
      by_cases hc2 : (fillLoop wc st).inFlight = []
      · rw [if_pos hc2]
        exact h1
      · rw [if_neg hc2]
        exact ih _ (doComplete_good n edges outcome (fillLoop wc st) pick h1 hedglt)

theorem initState_good (n : Nat) (deg : Nat → Int) (edges : Nat → List Nat)
    (hdeg : ∀ j, deg j = ∑ i ∈ Finset.range n, (((edges i).count j : Nat) : Int)) :
    Good n edges (initState n deg) := by
  have hrem : remainingOf n (initState n deg) = Finset.range n := by
    rw [remainingOf]
    apply Finset.filter_true_of_mem
    intro x _
    simp [processedOf, initState]
  refine ⟨?_, ?_, ?_, ?_, ?_, ?_, ?_, ?_, ?_, ?_⟩
  · intro B
    rw [hrem]
    exact hdeg B
  · intro B hB
    rcases hB with hB | hB
    · simp only [initState] at hB
      obtain ⟨_, h2⟩ := List.mem_filter.mp hB
      show deg B = 0
      simpa using h2
    · simp [initState] at hB
  · exact List.Nodup.filter _ (List.nodup_range n)
  · exact List.nodup_nil
  · simp [processedOf, initState]
  · intro j hj
    exact ⟨by simp [initState], by simp [processedOf, initState]⟩
  · intro j hj
    simp [initState] at hj
  · intro j
    simp [initState, processedOf]
  · intro j hj
    simp only [initState] at hj
    exact List.mem_range.mp (List.mem_filter.mp hj).1
  · intro j hj
    simp [initState] at hj

/-- C4: for every edge A→B of the built graph, the submission phase never
touches in-degrees; processing A's completion decrements B's in-degree by
the number of A→B edges, whatever A's outcome was; a job is appended to
the ready queue by edge processing exactly when its positive in-degree
reaches 0; hence whenever B is ready or was ever launched in the final
state, every A with an edge A→B has been completed and processed. -/
theorem c4_ready_after_prerequisites (jobs : List Job) (jparse : String → Option JVal)
    (deps : List (String × List String)) (maxParallel : Nat)
    (outcome : Nat → Option Nat) (picks : List Nat)
    (deg : Nat → Int) (edges : Nat → List Nat)
    (hbuild : build_dependency_graph jobs jparse deps = some (deg, edges)) :
    (∀ (wc : Nat) (st : SchedState), (fillLoop wc st).in_degree = st.in_degree) ∧
    (∀ (st : SchedState) (pick : Nat), st.inFlight ≠ [] →
      ∀ B, (doComplete edges outcome st pick).in_degree B =
        st.in_degree B -
          (((edges (st.inFlight.getD (pick % st.inFlight.length) 0)).count B : Nat) : Int)) ∧
    (∀ (l : List Nat) (dg : Nat → Int) (rdy : List Nat),
      (∀ C, (((l.count C : Nat)) : Int) ≤ dg C) → (∀ C ∈ rdy, dg C = 0) →
      ∀ B, B ∈ (processEdges l dg rdy).2 ↔
        B ∈ rdy ∨ (0 < dg B ∧ dg B = ((l.count B : Nat) : Int))) ∧
    (∀ B, B ∈ (schedRun (workerCount maxParallel jobs.length) edges outcome picks
          (initState jobs.length deg)).ready ∨
        B ∈ (schedRun (workerCount maxParallel jobs.length) edges outcome picks
          (initState jobs.length deg)).launched →
      ∀ A, B ∈ edges A →
        A ∈ processedOf (schedRun (workerCount maxParallel jobs.length) edges outcome picks
          (initState jobs.length deg))) := by
  rw [build_dependency_graph] at hbuild
  split at hbuild
  · rw [Option.some.injEq, Prod.mk.injEq] at hbuild
    obtain ⟨rfl, rfl⟩ := hbuild
    obtain ⟨hdeg, hempty, hlt⟩ := buildParts_inv jobs jparse deps
    have hlt' : ∀ A B, B ∈ (buildParts jobs jparse deps).edges A → B < jobs.length :=
      fun A B h => hlt A B h
    refine ⟨fun wc st => rfl, ?_, ?_, ?_⟩
    · intro st pick hne B
      rw [doComplete_eq _ outcome st pick hne]
      exact processEdges_deg _ _ _ B
    · intro l dg rdy hle h0 B
      obtain ⟨new, hsplit, _, hiff⟩ := processEdges_ready l dg rdy hle h0
      rw [hsplit, List.mem_append, hiff B]
    · intro B hB A hBA
      have hinit : Good jobs.length (buildParts jobs jparse deps).edges
          (initState jobs.length (buildParts jobs jparse deps).in_degree) :=
        initState_good jobs.length _ _ hdeg
      have hgood := schedRun_good jobs.length (buildParts jobs jparse deps).edges outcome
        (workerCount maxParallel jobs.length) hlt' picks _ hinit
      have hdeg0 := hgood.deg_zero B hB
      have hsum : ∑ A ∈ remainingOf jobs.length
          (schedRun (workerCount maxParallel jobs.length) (buildParts jobs jparse deps).edges
            outcome picks (initState jobs.length (buildParts jobs jparse deps).in_degree)),
          ((((buildParts jobs jparse deps).edges A).count B : Nat) : Int) = 0 := by
        rw [← hgood.deg_eq B]
        exact hdeg0
      have hall := (Finset.sum_eq_zero_iff_of_nonneg
        (fun i _ => Int.natCast_nonneg _)).mp hsum
      have hAlt : A < jobs.length := by
        by_contra hc
        push_neg at hc
        rw [hempty A hc] at hBA
        simp at hBA
      by_cases hAproc : A ∈ processedOf (schedRun (workerCount maxParallel jobs.length)
          (buildParts jobs jparse deps).edges outcome picks
          (initState jobs.length (buildParts jobs jparse deps).in_degree))
      · exact hAproc
      · exfalso
        have hArem : A ∈ remainingOf jobs.length (schedRun (workerCount maxParallel jobs.length)
            (buildParts jobs jparse deps).edges outcome picks
            (initState jobs.length (buildParts jobs jparse deps).in_degree)) :=
          Finset.mem_filter.mpr ⟨Finset.mem_range.mpr hAlt, hAproc⟩
        have hz := hall A hArem
        have hpos : 0 < ((buildParts jobs jparse deps).edges A).count B :=
          List.count_pos_iff_mem.mpr hBA
        omega
  · exact absurd hbuild (by simp)

/-- C4 (witness): in Scenario A (role2 depends on role1, edge 0→1), after
the run with two completions, job 1 was launched and its prerequisite 0 is
recorded as processed. -/
theorem c4_witness :
    1 ∈ (schedRun (workerCount 4 exJobs2.length)
          (buildParts exJobs2 noParse [("role2", ["role1"])]).edges allOk [0, 0]
          (initState exJobs2.length
            (buildParts exJobs2 noParse [("role2", ["role1"])]).in_degree)).launched ∧
    1 ∈ (buildParts exJobs2 noParse [("role2", ["role1"])]).edges 0 ∧
    0 ∈ processedOf (schedRun (workerCount 4 exJobs2.length)
          (buildParts exJobs2 noParse [("role2", ["role1"])]).edges allOk [0, 0]
          (initState exJobs2.length
            (buildParts exJobs2 noParse [("role2", ["role1"])]).in_degree)) :=
  ⟨by decide, by decide,
    (c4_ready_after_prerequisites exJobs2 noParse [("role2", ["role1"])] 4 allOk [0, 0]
      (buildParts exJobs2 noParse [("role2", ["role1"])]).in_degree
      (buildParts exJobs2 noParse [("role2", ["role1"])]).edges (by rfl)).2.2.2
      1 (Or.inr (by decide)) 0 (by decide)⟩

end Infrawork
